import Mathlib

/-!
Verification of the blacken-docs code-block substitution engine and its
prose formatter against the repository's natural-language specification.

The development shallowly embeds the Python sources:
  * `blacken_docs.py`   — the regex-driven substitution engine `format_str`
    (markdown fence, RST directive, LaTeX minted, pythontex dialects), the
    error collector and the file-level decision logic of `format_file`;
  * `formatter.py`      — `fix_inline`, the pre-fill portion of `wrap_text`,
    and `blacken_code_blocks` with its in-place `mode.line_length` updates;
  * `blacken_docs/formatter.py` — the package variant of `fix_inline` and
    `wrap_and_fix`.

Text is modelled as `List Char`.  Python string/stdlib primitives used by the
sources (`str.split`, `str.splitlines`, `str.strip`, `textwrap.dedent`,
`textwrap.indent`, `re` matching for the concrete patterns appearing in the
sources) are given executable models in the `Py` namespace, faithful to
CPython semantics on the concrete regexes involved.  The external formatter
(`black.format_str`) is a black-box collaborator and is modelled as an
explicit function argument `fmt : Str → Option Str` (`none` = the formatter
rejected the fragment, i.e. raised); likewise `textwrap.fill` inside
`wrap_text` of the package formatter is a black-box reflow collaborator.
-/

set_option maxHeartbeats 4000000
set_option maxRecDepth 4096

/-- Document text: a list of characters. -/
abbrev Str : Type := List Char

/-- Coerce a Lean string literal into the `List Char` text model. -/
def str (s : String) : Str := s.data

namespace Py

/-- The whitespace characters recognised by Python's `str.strip`/`str.isspace`
and by the regex class `\s` (the ASCII part plus the common Unicode ones). -/
def pyWhitespace : List Char :=
  [' ', '\t', '\n', '\x0d', '\x0b', '\x0c', '\x1c', '\x1d', '\x1e', '\x85',
   '\xa0', '\u2028', '\u2029']

def isSpace (c : Char) : Bool := pyWhitespace.contains c

/-- The line-break characters of `str.splitlines`. -/
def pyLineBreaks : List Char :=
  ['\n', '\x0d', '\x0b', '\x0c', '\x1c', '\x1d', '\x1e', '\x85', '\u2028', '\u2029']

def isLineBreak (c : Char) : Bool := pyLineBreaks.contains c

/-- Split into lines after each `'\n'`, keeping the newline characters.
This is the line structure seen by `re` in MULTILINE mode, where only
`'\n'` terminates a line. -/
def nlLines : Str → List Str
  | [] => []
  | c :: cs =>
    if c = '\n' then ['\n'] :: nlLines cs
    else
      match nlLines cs with
      | [] => [[c]]
      | l :: ls => (c :: l) :: ls

theorem nlLines_flatten (s : Str) : (nlLines s).flatten = s := by
  induction s with
  | nil => rfl
  | cons c cs ih =>
    by_cases h : c = '\n'
    · simp [nlLines, h]; simpa [h] using ih
    · simp only [nlLines, if_neg h]
      cases hcs : nlLines cs with
      | nil =>
        have : cs = [] := by simpa [hcs] using ih
        simp [this]
      | cons l ls =>
        simp only [List.flatten_cons]
        rw [hcs] at ih
        simp only [List.flatten_cons] at ih
        simp [ih]

theorem nlLines_nil_iff (s : Str) : nlLines s = [] ↔ s = [] := by
  constructor
  · intro h
    have := nlLines_flatten s
    simpa [h] using this
  · intro h; simp [h, nlLines]

/-- `str.splitlines(keepends=True)`: split at every line-break character,
treating `"\r\n"` as a single break, keeping the break characters. -/
def splitlinesKeep : Str → List Str
  | [] => []
  | '\x0d' :: '\n' :: cs => ['\x0d', '\n'] :: splitlinesKeep cs
  | c :: cs =>
    if isLineBreak c then [c] :: splitlinesKeep cs
    else
      match splitlinesKeep cs with
      | [] => [[c]]
      | l :: ls => (c :: l) :: ls

/-- Remove one trailing line break (`"\r\n"` counting as one) from a line. -/
def dropLineBreak (l : Str) : Str :=
  match l.reverse with
  | '\n' :: '\x0d' :: rest => rest.reverse
  | c :: rest => if isLineBreak c then rest.reverse else l
  | [] => l

/-- `str.splitlines()` (keepends = False). -/
def splitlines (s : Str) : List Str := (splitlinesKeep s).map dropLineBreak

/-- `s.split(" ")`: split at every single space; adjacent spaces yield empty
fields, and the empty string yields `[""]`. -/
def splitSpace : Str → List Str
  | [] => [[]]
  | c :: cs =>
    if c = ' ' then [] :: splitSpace cs
    else
      match splitSpace cs with
      | [] => [[c]]
      | l :: ls => (c :: l) :: ls

theorem splitSpace_ne_nil (s : Str) : splitSpace s ≠ [] := by
  cases s with
  | nil => simp [splitSpace]
  | cons c cs =>
    simp only [splitSpace]
    split
    · simp
    · split <;> simp

/-- `sep.flatten(parts)`. -/
def joinSep (sep : Str) (parts : List Str) : Str := List.intercalate sep parts

/-- Drop matching characters from the end of a list. -/
def dropTrail (p : Char → Bool) (l : Str) : Str := (l.reverse.dropWhile p).reverse

/-- `s.strip(chars)`: remove any of the given characters from both ends. -/
def stripChars (set : List Char) (l : Str) : Str :=
  dropTrail (set.contains ·) (l.dropWhile (set.contains ·))

/-- `s.rstrip()`: remove trailing Python whitespace. -/
def rstrip (l : Str) : Str := dropTrail isSpace l

/-- `s.strip()` with no argument. -/
def pyStrip (l : Str) : Str := dropTrail isSpace (l.dropWhile isSpace)

/-- Substring containment, `sub in s` for strings. -/
def containsSub (sub : Str) : Str → Bool
  | [] => sub.isEmpty
  | c :: cs => sub.isPrefixOf (c :: cs) || containsSub sub cs

/-- Uppercase an ASCII letter (model of `str.upper` on one character). -/
def upperChar (c : Char) : Char :=
  if 'a' ≤ c ∧ c ≤ 'z' then Char.ofNat (c.toNat - 32) else c

/-- Lexicographic strict comparison on character lists (Python `<` on `str`). -/
def lexLt : Str → Str → Bool
  | [], [] => false
  | [], _ :: _ => true
  | _ :: _, [] => false
  | a :: as, b :: bs => if a = b then lexLt as bs else decide (a < b)

/-- `min(xs)` on a nonempty list of strings: the first minimum under
lexicographic order; `none` models the `ValueError` on an empty sequence. -/
def pyMin (xs : List Str) : Option Str :=
  match xs with
  | [] => none
  | x :: rest => some (rest.foldl (fun m y => if lexLt y m then y else m) x)

end Py

namespace Py

/-- Is the character a space or tab (the class `[ \t]` used inside
`textwrap.dedent`'s internal regexes)? -/
def isBlankChar (c : Char) : Bool := c = ' ' || c = '\t'

/-- First phase of `textwrap.dedent`: lines consisting solely of spaces and
tabs are normalised to empty lines (`_whitespace_only_re.sub('', text)`,
a `re.MULTILINE` substitution, hence `'\n'`-based line structure). -/
def blankLineStep (l : Str) : Str :=
  let body := if l.getLast? = some '\n' then l.dropLast else l
  if body ≠ [] ∧ body.all isBlankChar then l.drop body.length else l

def blankWsLines (s : Str) : Str := ((nlLines s).map blankLineStep).flatten

/-- The leading `[ \t]` run of a line, provided a character other than
space, tab or newline follows the run. -/
def leadingRunStep (l : Str) : Option Str :=
  match l.drop (l.takeWhile isBlankChar).length with
  | c :: _ => if c = '\n' then none else some (l.takeWhile isBlankChar)
  | [] => none

/-- The runs collected by `_leading_whitespace_re.findall`. -/
def leadingWsRuns (s : Str) : List Str := (nlLines s).filterMap leadingRunStep

/-- Longest common prefix of two character lists. -/
def commonPre : Str → Str → Str
  | a :: as, b :: bs => if a = b then a :: commonPre as bs else []
  | _, _ => []

/-- The margin computed by `textwrap.dedent`: the longest common prefix of
the leading-whitespace runs of the content lines. -/
def dedentMargin (s : Str) : Str :=
  match leadingWsRuns (blankWsLines s) with
  | [] => []
  | i :: rest => rest.foldl commonPre i

/-- Strip `margin` from a line when the line starts with it. -/
def marginStrip (margin l : Str) : Str :=
  if margin.isPrefixOf l then l.drop margin.length else l

/-- `textwrap.dedent`: blank whitespace-only lines, then strip the common
margin from every line that starts with it. -/
def dedent (s : Str) : Str :=
  let t := blankWsLines s
  let margin := dedentMargin s
  if margin = [] then t
  else ((nlLines t).map (marginStrip margin)).flatten

/-- `textwrap.indent(text, prefix)` with the default predicate: prepend
`prefix` to every line that contains a non-whitespace character.  Uses
`str.splitlines(keepends=True)` line structure. -/
def indentStep (pre l : Str) : Str :=
  if l.any (fun c => ¬ isSpace c) then pre ++ l else l

def indentBy (pre : Str) (s : Str) : Str :=
  ((splitlinesKeep s).map (indentStep pre)).flatten

end Py

namespace BlackenDocs

/-- A formatting failure of one code block (`CodeBlockError`): the character
offset of the block's match in the text the pass ran on.  The carried
exception object is irrelevant to the engine's control flow and is dropped. -/
structure CodeBlockError where
  offset : Nat
deriving DecidableEq, Repr

/-- The candidate strings found by `INDENT_RE.findall(code)` where
`INDENT_RE = re.compile("^ +(?=[^ ])", re.MULTILINE)`: for every line, its
maximal leading run of spaces, provided the run is nonempty and some
character follows it on the line (a newline qualifies, since `[^ ]`
matches it). -/
def indentCandStep (l : Str) : Option Str :=
  if l.takeWhile (· = ' ') ≠ [] ∧ (l.takeWhile (· = ' ')).length < l.length then
    some (l.takeWhile (· = ' '))
  else none

def indentCandidates (code : Str) : List Str :=
  (Py.nlLines code).filterMap indentCandStep

/-- The trailing newline run matched by `TRAILING_NL_RE = re.compile("\n+\Z")`. -/
def trailingNl (s : Str) : Str := (s.reverse.takeWhile (· = '\n')).reverse

end BlackenDocs

namespace BlackenDocs

/-- Does the line close a fenced region opened with closing delimiter text
`head` (the back-referenced indent followed by the closing literal)?  The
rest of the line must be whitespace so that `\s*$` can succeed on it. -/
def closeLine (head : Str) (l : Str) : Bool :=
  head.isPrefixOf l && (l.drop head.length).all Py.isSpace

/-- Find the first closing line: returns the lines before it, the closing
line itself, and the lines after it. -/
def findClose (head : Str) : List Str → Option (List Str × Str × List Str)
  | [] => none
  | l :: rest =>
    if closeLine head l then some ([], l, rest)
    else
      match findClose head rest with
      | none => none
      | some (pre, cl, post) => some (l :: pre, cl, post)

theorem findClose_eq (head : Str) (ls pre post : List Str) (cl : Str)
    (h : findClose head ls = some (pre, cl, post)) : pre ++ cl :: post = ls := by
  induction ls generalizing pre with
  | nil => simp [findClose] at h
  | cons l rest ih =>
    by_cases hc : closeLine head l
    · simp [findClose, hc] at h
      obtain ⟨h1, h2, h3⟩ := h
      simp [← h1, ← h2, ← h3]
    · simp only [findClose, if_neg hc] at h
      cases hrec : findClose head rest with
      | none => rw [hrec] at h; simp at h
      | some pcp =>
        obtain ⟨pre0, cl0, post0⟩ := pcp
        rw [hrec] at h
        simp at h
        obtain ⟨h1, h2, h3⟩ := h
        have h4 := ih pre0 (by rw [hrec, h2, h3])
        simpa [← h1] using h4

theorem findClose_len (head : Str) (ls pre post : List Str) (cl : Str)
    (h : findClose head ls = some (pre, cl, post)) : post.length < ls.length := by
  have := findClose_eq head ls pre post cl h
  have hlen : (pre ++ cl :: post).length = ls.length := by rw [this]
  simp [List.length_append] at hlen
  omega

/-- One matched fenced block: the opening delimiter line (`before`), the
captured indent, the raw code region, and the closing delimiter line
(`after`).

The regex's `after` group ends with `\s*$`, which can absorb whitespace
after the closing literal; the engine re-emits the `after` group verbatim
and a match can never begin inside that whitespace (every dialect's opening
delimiter starts with a non-whitespace character after the indent), so
taking the `after` component to be the closing line leaves the output, the
error offsets and the continuation of the scan unchanged. -/
structure FenceBlock where
  bef : Str
  ind : Str
  code : Str
  aft : Str
deriving DecidableEq, Repr

inductive FPiece
  | raw (s : Str)
  | blk (b : FenceBlock)
deriving DecidableEq, Repr

/-- The source text span a piece stands for. -/
def fpieceSrc : FPiece → Str
  | .raw s => s
  | .blk b => b.bef ++ b.code ++ b.aft

/-- Generic scanner for the three fenced dialects (markdown, minted,
pythontex): `openP` recognises an opening delimiter line and returns the
captured indent together with the closing delimiter text the back-reference
requires.  The region is lazy: it ends at the first closing line. -/
def fenceScan (openP : Str → Option (Str × Str)) : Nat → List Str → List FPiece
  | _, [] => []
  | 0, ls => ls.map .raw
  | fuel + 1, l :: rest =>
    match openP l with
    | none => .raw l :: fenceScan openP fuel rest
    | some (ind, head) =>
      match findClose head rest with
      | none => .raw l :: fenceScan openP fuel rest
      | some (pre, cl, post) =>
        .blk ⟨l, ind, pre.flatten, cl⟩ :: fenceScan openP fuel post

end BlackenDocs

namespace BlackenDocs

/-- Opening line of `MD_RE`: an indent of spaces followed by exactly
"```python" and a newline; the closing delimiter is the same indent
followed by "```". -/
def openMd (l : Str) : Option (Str × Str) :=
  let ind := l.takeWhile (· = ' ')
  if l.drop ind.length = str "```python\n" then some (ind, ind ++ str "```") else none

/-- Opening line of `LATEX_RE`: an indent followed by the minted-environment
opener; the closing delimiter repeats the indent with the closing literal. -/
def openLatex (l : Str) : Option (Str × Str) :=
  let ind := l.takeWhile (· = ' ')
  if l.drop ind.length = str "\\begin{minted}{python}\n" then
    some (ind, ind ++ str "\\end{minted}")
  else none

def pytexLangs : List Str :=
  [str "pyblock", str "pycode", str "pyconsole", str "pyverbatim"]

/-- Opening line of `PYTHONTEX_RE`: an indent followed by a `\begin` of one
of the four pythontex environments; the closing delimiter back-references
the same environment name. -/
def openPytex (l : Str) : Option (Str × Str) :=
  let ind := l.takeWhile (· = ' ')
  pytexLangs.findSome? (fun lang =>
    if l.drop ind.length = str "\\begin\x7b" ++ lang ++ str "\x7d\n" then
      some (ind, ind ++ str "\\end\x7b" ++ lang ++ str "\x7d")
    else none)

def BLOCK_TYPES : List Str :=
  [str "code", str "code-block", str "sourcecode", str "ipython"]

def PY_LANGS : List Str :=
  [str "python", str "py", str "sage", str "python3", str "py3", str "numpy"]

/-- The admissible directive-line bodies of `RST_RE` after the indent:
`.. jupyter-execute::` or `.. <block-type>:: <python-alias>`, each followed
immediately by the newline. -/
def rstBodies : List Str :=
  str ".. jupyter-execute::\n" ::
    (BLOCK_TYPES.map (fun bt =>
      PY_LANGS.map (fun lang => str ".. " ++ bt ++ str ":: " ++ lang ++ ['\n']))).flatten

/-- Opening line of `RST_RE`: returns the captured indent. -/
def rstDirective (l : Str) : Option Str :=
  let ind := l.takeWhile (· = ' ')
  if rstBodies.contains (l.drop ind.length) then some ind else none

/-- An option line `(?P=indent) +:.*\n`: the indent, at least one space,
then a colon, then anything up to the line's newline. -/
def optionLine (ind : Str) (l : Str) : Bool :=
  ind.isPrefixOf l &&
    (let r := l.drop ind.length
     r.head? = some ' ' && (r.dropWhile (· = ' ')).head? = some ':' &&
       l.getLast? = some '\n')

/-- A blank line consumable by the `\n*` component. -/
def blankLine (l : Str) : Bool := l = ['\n']

/-- A line of the code group `(^((?P=indent) +.*)?\n)+`: either a bare
newline or the indent, at least one space, then anything up to the newline. -/
def codeLineP (ind : Str) (l : Str) : Bool :=
  l = ['\n'] || ((ind ++ [' ']).isPrefixOf l && l.getLast? = some '\n')

inductive RPiece
  | raw (s : Str)
  | blk (bef code : Str)
deriving DecidableEq, Repr

def rpieceSrc : RPiece → Str
  | .raw s => s
  | .blk bef code => bef ++ code

/-- Scanner for `RST_RE`: at a directive line, greedily take option lines,
then blank lines, then code lines; if the greedy code group is empty the
regex backtracks, turning the last blank line (or, failing that, the last
option line, which also fits the code-line grammar) into the code group. -/
def rstScan : Nat → List Str → List RPiece
  | _, [] => []
  | 0, ls => ls.map .raw
  | fuel + 1, l :: rest =>
    match rstDirective l with
    | none => .raw l :: rstScan fuel rest
    | some ind =>
      let opts := rest.takeWhile (optionLine ind)
      let r1 := rest.drop opts.length
      let blanks := r1.takeWhile blankLine
      let r2 := r1.drop blanks.length
      let code := r2.takeWhile (codeLineP ind)
      let r3 := r2.drop code.length
      if code ≠ [] then
        .blk (l ++ opts.flatten ++ blanks.flatten) code.flatten :: rstScan fuel r3
      else if blanks ≠ [] then
        .blk (l ++ opts.flatten ++ blanks.dropLast.flatten) ['\n'] :: rstScan fuel r2
      else if opts ≠ [] then
        .blk (l ++ opts.dropLast.flatten) (opts.getLastD []) :: rstScan fuel r1
      else
        .raw l :: rstScan fuel rest

end BlackenDocs

namespace BlackenDocs

/-- `_md_match` / `_latex_match`: dedent the code, run the formatter under
`_collect_error` (on failure the code stays dedented), reindent with the
captured indent and re-emit the delimiters verbatim.  The second component
reports whether a `CodeBlockError` was recorded. -/
def fenceRender (fmt : Str → Option Str) (b : FenceBlock) : Str × Bool :=
  let ded := Py.dedent b.code
  match fmt ded with
  | some f => (b.bef ++ Py.indentBy b.ind f ++ b.aft, false)
  | none => (b.bef ++ Py.indentBy b.ind ded ++ b.aft, true)

/-- `_rst_match`: take the lexicographic minimum of the `INDENT_RE`
candidates (a `ValueError` escapes if there are none), capture the trailing
newline run, dedent, format under `_collect_error`, reindent with the
minimum, strip trailing whitespace and append the captured run.  `none`
models the fatal `ValueError` (or the `assert` on the trailing run). -/
def rstRender (fmt : Str → Option Str) (bef code : Str) : Option (Str × Bool) :=
  match Py.pyMin (indentCandidates code) with
  | none => none
  | some minInd =>
    let trail := trailingNl code
    if trail = [] then none
    else
      let ded := Py.dedent code
      match fmt ded with
      | some f => some (bef ++ Py.rstrip (Py.indentBy minInd f) ++ trail, false)
      | none => some (bef ++ Py.rstrip (Py.indentBy minInd ded) ++ trail, true)

/-- Substitution over the pieces of one fenced dialect, threading the
character offset of each piece in the pass's input text and collecting
`CodeBlockError`s at the offsets of failed blocks, in match order. -/
def fenceGo (fmt : Str → Option Str) : Nat → List FPiece → Str × List CodeBlockError
  | _, [] => ([], [])
  | off, .raw g :: ps =>
    let r := fenceGo fmt (off + g.length) ps
    (g ++ r.1, r.2)
  | off, .blk b :: ps =>
    let src := b.bef ++ b.code ++ b.aft
    let out := fenceRender fmt b
    let r := fenceGo fmt (off + src.length) ps
    (out.1 ++ r.1, if out.2 then ⟨off⟩ :: r.2 else r.2)

/-- Substitution over the RST pieces; a block whose render is fatal aborts
the whole pass (the exception propagates out of `re.sub`), discarding both
the partially built text and the collected error list. -/
def rstGo (fmt : Str → Option Str) : Nat → List RPiece → Except Unit (Str × List CodeBlockError)
  | _, [] => .ok ([], [])
  | off, .raw g :: ps => do
    let r ← rstGo fmt (off + g.length) ps
    .ok (g ++ r.1, r.2)
  | off, .blk bef code :: ps =>
    match rstRender fmt bef code with
    | none => .error ()
    | some (out, failed) => do
      let r ← rstGo fmt (off + bef.length + code.length) ps
      .ok (out ++ r.1, if failed then ⟨off⟩ :: r.2 else r.2)

def mdSplit (s : Str) : List FPiece :=
  fenceScan openMd (Py.nlLines s).length (Py.nlLines s)

def latexSplit (s : Str) : List FPiece :=
  fenceScan openLatex (Py.nlLines s).length (Py.nlLines s)

def pytexSplit (s : Str) : List FPiece :=
  fenceScan openPytex (Py.nlLines s).length (Py.nlLines s)

def rstSplit (s : Str) : List RPiece :=
  rstScan (Py.nlLines s).length (Py.nlLines s)

def mdPass (fmt : Str → Option Str) (s : Str) : Str × List CodeBlockError :=
  fenceGo fmt 0 (mdSplit s)

def latexPass (fmt : Str → Option Str) (s : Str) : Str × List CodeBlockError :=
  fenceGo fmt 0 (latexSplit s)

def pytexPass (fmt : Str → Option Str) (s : Str) : Str × List CodeBlockError :=
  fenceGo fmt 0 (pytexSplit s)

def rstPass (fmt : Str → Option Str) (s : Str) : Except Unit (Str × List CodeBlockError) :=
  rstGo fmt 0 (rstSplit s)

/-- `format_str`: the four dialect substitutions in source order (markdown,
RST, LaTeX minted, pythontex), each operating on the previous pass's
output, all appending to one error list.  A `.error` result models an
exception escaping `format_str` (the `ValueError`/`AssertionError` of
`_rst_match`), which discards text and error list alike. -/
def format_str (fmt : Str → Option Str) (src : Str) :
    Except Unit (Str × List CodeBlockError) := do
  let r1 := mdPass fmt src
  let r2 ← rstPass fmt r1.1
  let r3 := latexPass fmt r2.1
  let r4 := pytexPass fmt r3.1
  .ok (r4.1, (r1.2 ++ r2.2) ++ r3.2 ++ r4.2)

/-- The observable file-level outcome of `format_file`. -/
structure FileOutcome where
  written : Option Str
  failures : Nat
  returnsOne : Bool
deriving DecidableEq, Repr

/-- The decision logic of `format_file` after `format_str` returned
normally: with a nonempty error list it reports every error and returns 1
without writing; otherwise it writes back only when the text changed and
`--check` is off. -/
def format_file (contents : Str) (res : Str × List CodeBlockError)
    (check diff : Bool) : FileOutcome :=
  if res.2 ≠ [] then ⟨none, res.2.length, true⟩
  else if contents ≠ res.1 ∧ ¬ check then ⟨some res.1, 0, false⟩
  else if contents ≠ res.1 ∧ check ∧ diff then ⟨none, 0, false⟩
  else ⟨none, 0, false⟩

end BlackenDocs

namespace Formatter

/-- The `EXCEPTIONS` tuple: names of the builtin exception classes,
collected at runtime by `inspect.getmembers` (alphabetical).  Modelled from
the host runtime's builtins (CPython 3.11). -/
def EXCEPTIONS : List Str :=
  [str "ArithmeticError", str "AssertionError", str "AttributeError",
   str "BaseException", str "BaseExceptionGroup", str "BlockingIOError",
   str "BrokenPipeError", str "BufferError", str "BytesWarning",
   str "ChildProcessError", str "ConnectionAbortedError", str "ConnectionError",
   str "ConnectionRefusedError", str "ConnectionResetError",
   str "DeprecationWarning", str "EOFError", str "EncodingWarning",
   str "EnvironmentError", str "Exception", str "ExceptionGroup",
   str "FileExistsError", str "FileNotFoundError", str "FloatingPointError",
   str "FutureWarning", str "GeneratorExit", str "IOError", str "ImportError",
   str "ImportWarning", str "IndentationError", str "IndexError",
   str "InterruptedError", str "IsADirectoryError", str "KeyError",
   str "KeyboardInterrupt", str "LookupError", str "MemoryError",
   str "ModuleNotFoundError", str "NameError", str "NotADirectoryError",
   str "NotImplementedError", str "OSError", str "OverflowError",
   str "PendingDeprecationWarning", str "PermissionError",
   str "ProcessLookupError", str "RecursionError", str "ReferenceError",
   str "ResourceWarning", str "RuntimeError", str "RuntimeWarning",
   str "StopAsyncIteration", str "StopIteration", str "SyntaxError",
   str "SyntaxWarning", str "SystemError", str "SystemExit", str "TabError",
   str "TimeoutError", str "TypeError", str "UnboundLocalError",
   str "UnicodeDecodeError", str "UnicodeEncodeError", str "UnicodeError",
   str "UnicodeTranslateError", str "UnicodeWarning", str "UserWarning",
   str "ValueError", str "Warning", str "ZeroDivisionError"]

/-- The `TYPES` tuple: builtin classes that are not exceptions and whose
name does not start with an uppercase letter (same runtime collection). -/
def TYPES : List Str :=
  [str "bool", str "bytearray", str "bytes", str "classmethod", str "complex",
   str "dict", str "enumerate", str "filter", str "float", str "frozenset",
   str "int", str "list", str "map", str "memoryview", str "object",
   str "property", str "range", str "reversed", str "set", str "slice",
   str "staticmethod", str "str", str "super", str "tuple", str "type",
   str "zip"]

/-- The literal alternatives of `INLINE_WRAPPED_TYPES` other than the
leading `\d+` regex alternative, in alternation order. -/
def inlineNames : List Str :=
  str "None" :: str "NoneType" :: str "True" :: str "False" ::
    (EXCEPTIONS ++ TYPES)

/-- One alternative of the inline-literal alternation matches `p` exactly:
it is one of the closed names or a nonempty digit run. -/
def nameOk (p : Str) : Bool := inlineNames.contains p || (¬ p.isEmpty && p.all (·.isDigit))

/-- Can the remainder after a match be closed by `$` (end of string, or a
single final newline)? -/
def tailOk (r : Str) : Bool := r = [] || r = ['\n']

/-- The group captured by `FIND_NOT_INLINE_TYPES.match(w)` for the
`formatter.py` pattern `^(alt)[^()]$`: the regex engine first tries the
greedy `\d+` alternative (longest digit prefix first), then the literal
names in alternation order; the `[^()]` consumes exactly one character and
`$` accepts an optional final newline after it. -/
def altFirst (w : Str) : Option Str :=
  let d := (w.takeWhile (·.isDigit)).length
  let digits := (List.range d).reverse.findSome? (fun k =>
    match w[k + 1]? with
    | some c =>
      if c ≠ '(' && c ≠ ')' && tailOk (w.drop (k + 2)) then some (w.take (k + 1))
      else none
    | none => none)
  match digits with
  | some p => some p
  | none =>
    inlineNames.findSome? (fun n =>
      if n.isPrefixOf w then
        match w[n.length]? with
        | some c =>
          if c ≠ '(' && c ≠ ')' && tailOk (w.drop (n.length + 1)) then some n
          else none
        | none => none
      else none)

/-- `FIND_NOT_INLINE_TYPES.sub(r"``\1``", w)`: replace the matched span
(the name and the following character, but not a trailing newline kept
outside the match by `$`). -/
def subGeneral (w : Str) : Str :=
  match altFirst w with
  | some p => str "``" ++ p ++ str "``" ++ w.drop (p.length + 1)
  | none => w

/-- Does `^``(alt)``$` accept the string (with the optional final
newline)? -/
def strictCore (core : Str) : Bool :=
  (str "``").isPrefixOf core && (str "``").isSuffixOf core &&
    4 ≤ core.length && nameOk ((core.drop 2).dropLast.dropLast)

def strictMatch (w : Str) : Bool :=
  strictCore w || (w.getLast? = some '\n' && strictCore w.dropLast)

/-- `is_not_fully_wrapped`: longer than 4 characters, backtick-delimited on
both sides but not double-backtick-delimited on both sides. -/
def isNotFullyWrapped (w : Str) : Bool :=
  4 < w.length &&
    ((str "`").isPrefixOf w && (str "`").isSuffixOf w &&
      ¬ ((str "``").isPrefixOf w && (str "``").isSuffixOf w))

/-- The per-word body of the `fix_inline` loop in `formatter.py`. -/
def fixWord (w : Str) : Str :=
  let w1 :=
    if (altFirst w).isSome && ¬ strictMatch w then subGeneral (Py.stripChars ['`'] w)
    else w
  if isNotFullyWrapped w1 then str "``" ++ Py.stripChars ['`'] w1 ++ str "``" else w1

/-- `fix_inline` of `formatter.py`: words of each kept-ends line are
rewritten and appended to one flat list, joined by single spaces, re-split
into lines and joined with newlines. -/
def fix_inline (s : Str) : Str :=
  let ws := (Py.splitlinesKeep s).flatMap (fun line => (Py.splitSpace line).map fixWord)
  Py.joinSep ['\n'] (Py.splitlines (Py.joinSep [' '] ws))

end Formatter

namespace Formatter

/-- `string.punctuation`. -/
def PUNCTUATION : List Char :=
  (str "!\"#$%&'()*+,-./:;<=>?@[\\]^_`\x7b|\x7d~")

/-- `string.replace("    ", "\u000E")`: left-to-right, non-overlapping. -/
def replace4sp : Str → Str
  | ' ' :: ' ' :: ' ' :: ' ' :: rest => '\x0e' :: replace4sp rest
  | c :: rest => c :: replace4sp rest
  | [] => []

/-- `re.sub(r"^\n{2,}$", "\n\n", string, re.M)`: the flags land in the
count argument, so without MULTILINE the pattern only matches a string
made entirely of two or more newlines. -/
def subAllBlank (s : Str) : Str :=
  if 2 ≤ s.length ∧ s.all (· = '\n') then ['\n', '\n'] else s

/-- `re.sub(r"\n{3}", "\u000F", string)`: replace every run of exactly
three newlines, left to right, non-overlapping. -/
def sub3nl : Str → Str
  | '\n' :: '\n' :: '\n' :: rest => '\x0f' :: sub3nl rest
  | c :: rest => c :: sub3nl rest
  | [] => []

/-- `f"{line[:1].upper().strip()}{line[1:].strip()}."`. -/
def capDot (l : Str) : Str :=
  (match l with
   | [] => []
   | c :: rest =>
     (let u := Py.upperChar c
      if Py.isSpace u then [] else [u]) ++ Py.pyStrip rest) ++ ['.']

/-- Is the line passed through unmodified (`"::" in line` or a leading
tab sentinel)? -/
def skipLine (l : Str) : Bool :=
  Py.containsSub (str "::") l || l.head? = some '\x0e'

/-- The punctuation-handling loop of `wrap_text` over the split lines,
carrying `last_line` (initially a single space) and the emitted lines in
reverse; the full-stop transfer rewrites the previously emitted line. -/
def migrateGo : List Str → Str → List Str → List Str
  | [], _, acc => acc.reverse
  | l :: rest, last, acc =>
    if skipLine l then migrateGo rest l (l :: acc)
    else if last = [] ∧ l ≠ [] ∧ ¬ (∃ c, l.getLast? = some c ∧ PUNCTUATION.contains c) then
      let l2 := capDot l
      migrateGo rest l2 (l2 :: acc)
    else if last.getLast? = some '.' ∧ l ≠ [] ∧ l.getLast? ≠ some '.' then
      let acc2 := match acc with
        | [] => []
        | p :: t => p.dropLast :: t
      let l2 := l ++ ['.']
      migrateGo rest l2 (l2 :: acc2)
    else migrateGo rest l (l :: acc)

/-- Everything `wrap_text` (in `formatter.py`) does before the
`textwrap.fill` call: the sentinel substitutions followed by the
line-by-line punctuation-migration loop, re-joined with newlines
(`"\n".join(ret.values())`). -/
def wrap_text_pre (s : Str) : Str :=
  let s3 := sub3nl (subAllBlank (replace4sp s))
  Py.joinSep ['\n'] (migrateGo (Py.splitlines s3) [' '] [])

/-- The punctuation-migration rule exactly as the specification words it:
a line with no trailing punctuation followed by a non-blank line gets a
period and the follower is capitalized; a line ending in a period whose
follower does not end in one passes its period forward; blank lines are
skipped. -/
def migrateClaimGo : Str → List Str → List Str
  | l, [] => [l]
  | l, next :: rest =>
    if l = [] then l :: migrateClaimGo next rest
    else if ¬ (∃ c, l.getLast? = some c ∧ PUNCTUATION.contains c) ∧ next ≠ [] then
      (l ++ ['.']) :: migrateClaimGo
        (match next with
         | [] => []
         | c :: cs => Py.upperChar c :: cs) rest
    else if l.getLast? = some '.' ∧ next.getLast? ≠ some '.' then
      l.dropLast :: migrateClaimGo (next ++ ['.']) rest
    else l :: migrateClaimGo next rest

def migrateClaim : List Str → List Str
  | [] => []
  | l :: rest => migrateClaimGo l rest

end Formatter

namespace Formatter

/-- The shared `black.Mode` configuration, reduced to the field the
sources mutate. -/
structure Mode where
  line_length : Int
deriving DecidableEq, Repr

/-- A result of `RST_RE.search` in `formatter.py`, reduced to its four
captured groups. -/
structure RMatch where
  bef : Str
  ind : Str
  code : Str
  aft : Str
deriving DecidableEq, Repr

/-- The inner `code_formatter` of `blacken_code_blocks`: re-search, then
dedent the indent+code region, run `black.format_str` at the current
(reduced) line length and reindent by four spaces.  A `black` failure
(`black.InvalidInput`) escapes carrying the mode as it is at that moment. -/
def code_formatter (search : Str → Option RMatch) (black : Str → Int → Option Str)
    (m1 : Mode) (s : Str) : Except Mode (Str × Str × Str) :=
  match search s with
  | none => .ok (s, [], [])
  | some m =>
    match black (Py.dedent (m.ind ++ m.code)) m1.line_length with
    | none => .error m1
    | some f => .ok (m.bef, Py.indentBy (str "    ") f, m.aft)

/-- The `while new_before != old_before` loop.  `old_before` is fixed at
entry; the loop re-runs `code_formatter` on the previous `before`.  The
fuel bound is irrelevant in practice: with a function-valued `search` the
first iteration already has `new_before = old_before` (see
`blacken_code_blocks_eq`). -/
def bcbLoop (search : Str → Option RMatch) (black : Str → Int → Option Str)
    (m1 : Mode) (old : Str) :
    Nat → Str → List (Str × Str × Str) → Except Mode (List (Str × Str × Str))
  | 0, _, acc => .ok acc
  | fuel + 1, nb, acc =>
    if nb = old then .ok acc
    else
      match code_formatter search black m1 nb with
      | .error e => .error e
      | .ok (nb2, c, a) => bcbLoop search black m1 old fuel nb2 ((nb2, c, a) :: acc)

/-- `blacken_code_blocks` of `formatter.py`: on a search hit the shared
mode's `line_length` is decremented by 4 in place, the loop formats, and
the decrement is undone before the normal return; the result is the
reversed accumulated triples joined.  A `black` failure escapes before the
restoring increment, leaving the mode reduced. -/
def blacken_code_blocks (search : Str → Option RMatch) (black : Str → Int → Option Str)
    (s : Str) (mode : Mode) : Except Mode (Str × Mode) :=
  match search s with
  | none => .ok (s, mode)
  | some m0 =>
    let m1 : Mode := ⟨mode.line_length - 4⟩
    match code_formatter search black m1 s with
    | .error e => .error e
    | .ok (nb, c, a) =>
      match bcbLoop search black m1 m0.bef s.length nb [(nb, c, a)] with
      | .error e => .error e
      | .ok acc =>
        (.ok ((acc.map (fun t => t.1 ++ t.2.1 ++ t.2.2)).flatten, ⟨m1.line_length + 4⟩))

end Formatter

namespace PkgFormatter

/-- A regex word character (`\w`): alphanumeric or underscore. -/
def isWordChar (c : Char) : Bool := c.isAlphanum || c = '_'

/-- Can `\W?$` close a match of the package pattern starting after a group
of length `plen`?  Returns the full span consumed inside the match (the
engine tries the greedy `\W?` with a character first).  Shares `tailOk`
and the name tables with the `Formatter` namespace. -/
def alt2Span (w : Str) (plen : Nat) : Option Nat :=
  match w[plen]? with
  | some c =>
    if ¬ isWordChar c ∧ Formatter.tailOk (w.drop (plen + 1)) then some (plen + 1)
    else if Formatter.tailOk (w.drop plen) then some plen
    else none
  | none => if Formatter.tailOk (w.drop plen) then some plen else none

/-- Match of the package `FIND_NOT_INLINE_TYPES` pattern `^(alt)\W?$`:
the captured group and the span the match consumes. -/
def altFirst2 (w : Str) : Option (Str × Nat) :=
  let d := (w.takeWhile (·.isDigit)).length
  let digits := (List.range d).reverse.findSome? (fun k =>
    (alt2Span w (k + 1)).map (fun sp => (w.take (k + 1), sp)))
  match digits with
  | some r => some r
  | none =>
    Formatter.inlineNames.findSome? (fun n =>
      if n.isPrefixOf w then (alt2Span w n.length).map (fun sp => (n, sp)) else none)

def subGeneral2 (w : Str) : Str :=
  match altFirst2 w with
  | some (p, sp) => str "``" ++ p ++ str "``" ++ w.drop sp
  | none => w

/-- Match of the package `FIND_INLINE_TYPES` pattern `^``(alt)``\W?$`. -/
def strictMatch2 (w : Str) : Bool :=
  (str "``").isPrefixOf w &&
    (let rest := w.drop 2
     let d := (rest.takeWhile (·.isDigit)).length
     ((List.range d).map (· + 1)).any (fun k =>
        (str "``").isPrefixOf (rest.drop k) && (alt2Span w (2 + k + 2)).isSome) ||
      Formatter.inlineNames.any (fun n =>
        n.isPrefixOf rest && (str "``").isPrefixOf (rest.drop n.length) &&
          (alt2Span w (2 + n.length + 2)).isSome))

/-- Per-word body of the package `fix_inline` (note: `word.strip("`")`
before the substitution, as in the source). -/
def fixWord2 (w : Str) : Str :=
  let w1 :=
    if (altFirst2 w).isSome && ¬ strictMatch2 w then subGeneral2 (Py.stripChars ['`'] w)
    else w
  if Formatter.isNotFullyWrapped w1 then str "``" ++ Py.stripChars ['`'] w1 ++ str "``"
  else w1

/-- `fix_inline` of `blacken_docs/formatter.py`: like the module-level one
but ending with `textwrap.dedent(f" {text}")`. -/
def fix_inline (s : Str) : Str :=
  let ws := (Py.splitlinesKeep s).flatMap (fun line => (Py.splitSpace line).map fixWord2)
  Py.dedent (' ' :: Py.joinSep ['\n'] (Py.splitlines (Py.joinSep [' '] ws)))

/-- `wrap_and_fix`: optionally decrement the shared `mode.line_length` by
the indent, run `fix_inline` then `wrap_text` (whose live body is just
`textwrap.fill(string, width=mode.line_length)`, modelled as the black-box
`fill` collaborator), then restore the decrement and reindent.  A `fill`
failure escapes with the mode still reduced. -/
def wrap_and_fix (fill : Str → Int → Except Unit Str) (text : Str)
    (mode : Formatter.Mode) (indent : Option Int) :
    Except Formatter.Mode (Str × Formatter.Mode) :=
  let m1 : Formatter.Mode :=
    match indent with
    | some i => ⟨mode.line_length - i⟩
    | none => mode
  let t1 := fix_inline text
  match fill t1 m1.line_length with
  | .error _ => .error m1
  | .ok t2 =>
    match indent with
    | some i => .ok (Py.indentBy (List.replicate i.toNat ' ') t2, ⟨m1.line_length + i⟩)
    | none => .ok (t2, m1)

end PkgFormatter

namespace Py

theorem prefix_drop {α : Type} (t l : List α) (h : t <+: l) :
    t ++ l.drop t.length = l := by
  obtain ⟨u, rfl⟩ := h
  simp

end Py

namespace Py

theorem splitlinesKeep_flatten (s : Str) : (splitlinesKeep s).flatten = s := by
  induction s using splitlinesKeep.induct with
  | case1 => rfl
  | case2 cs ih =>
    show (['\x0d', '\n'] :: splitlinesKeep cs).flatten = _
    simp [ih]
  | case3 c cs hcr hb ih =>
    rw [splitlinesKeep]
    · rw [if_pos hb]
      simpa using ih
    · exact hcr
  | case4 c cs hcr hb hnil ih =>
    rw [splitlinesKeep]
    · rw [if_neg hb, hnil]
      have h2 : cs = [] := by
        rw [hnil] at ih
        simpa using ih.symm
      simp [h2]
    · exact hcr
  | case5 c cs hcr hb l ls hcons ih =>
    rw [splitlinesKeep]
    · rw [if_neg hb, hcons]
      rw [hcons] at ih
      simp only [List.flatten_cons] at ih ⊢
      simp [ih]
    · exact hcr

end Py

namespace BlackenDocs

theorem takeWhile_drop {α : Type} (p : α → Bool) (l : List α) :
    l.takeWhile p ++ l.drop (l.takeWhile p).length = l :=
  Py.prefix_drop _ _ (List.takeWhile_prefix p)

theorem map_raw_srcF (ls : List Str) :
    ((ls.map FPiece.raw).map fpieceSrc).flatten = ls.flatten := by
  induction ls with
  | nil => rfl
  | cons a t ih => simp [fpieceSrc, ← List.map_map, ih]

theorem map_raw_srcR (ls : List Str) :
    ((ls.map RPiece.raw).map rpieceSrc).flatten = ls.flatten := by
  induction ls with
  | nil => rfl
  | cons a t ih => simp [rpieceSrc, ← List.map_map, ih]

/-- The fenced-dialect scanner's pieces reconstruct the scanned lines
(for any fuel value: exhausted fuel degrades to raw pieces, which are
also sound). -/
theorem fenceScan_src (openP : Str → Option (Str × Str)) (fuel : Nat) (ls : List Str) :
    ((fenceScan openP fuel ls).map fpieceSrc).flatten = ls.flatten := by
  induction fuel, ls using fenceScan.induct openP with
  | case1 fuel => cases fuel <;> rfl
  | case2 ls h =>
    rw [fenceScan]
    · exact map_raw_srcF ls
    · exact h
  | case3 fuel l ls h ih =>
    simp only [fenceScan, h]
    simpa [fpieceSrc] using ih
  | case4 fuel l ls ind head hop hfc ih =>
    simp only [fenceScan, hop, hfc]
    simpa [fpieceSrc] using ih
  | case5 fuel l ls ind head hop pre cl post hfc ih =>
    simp only [fenceScan, hop, hfc]
    have hre := findClose_eq head ls pre post cl hfc
    simp only [List.map_cons, List.flatten_cons, fpieceSrc, ih, ← hre]
    simp

/-- The RST scanner's pieces reconstruct the scanned lines. -/
theorem rstScan_src (fuel : Nat) (ls : List Str) :
    ((rstScan fuel ls).map rpieceSrc).flatten = ls.flatten := by
  induction fuel, ls using rstScan.induct with
  | case1 fuel => cases fuel <;> rfl
  | case2 ls h =>
    rw [rstScan]
    · exact map_raw_srcR ls
    · exact h
  | case3 fuel l ls h ih =>
    simp only [rstScan, h]
    simpa [rpieceSrc] using ih
  | case4 fuel l ls ind hd opts r1 blanks r2 code r3 hcode ih =>
    simp only [rstScan, hd, if_pos hcode]
    unfold_let r3 r2 r1 opts blanks code at ih
    simp only [List.map_cons, List.flatten_cons, rpieceSrc, ih]
    conv_rhs => rw [← takeWhile_drop (optionLine ind) ls]
    conv_rhs =>
      rw [← takeWhile_drop blankLine (List.drop (List.takeWhile (optionLine ind) ls).length ls)]
    conv_rhs =>
      rw [← takeWhile_drop (codeLineP ind)
        (List.drop
          (List.takeWhile blankLine
            (List.drop (List.takeWhile (optionLine ind) ls).length ls)).length
          (List.drop (List.takeWhile (optionLine ind) ls).length ls))]
    simp
  | case5 fuel l ls ind hd opts r1 blanks r2 code hcode hblanks ih =>
    simp only [rstScan, hd, if_neg hcode, if_pos hblanks]
    unfold_let r2 r1 opts blanks at ih hblanks
    simp only [List.map_cons, List.flatten_cons, rpieceSrc, ih]
    have hbl : ∀ b ∈ blanks, b = ['\n'] := by
      intro b hb
      have := List.mem_takeWhile_imp hb
      simpa [blankLine] using this
    have hne : blanks ≠ [] := hblanks
    have hrecon : blanks.dropLast ++ [['\n']] = blanks := by
      have h1 := List.dropLast_append_getLast hne
      rw [hbl _ (List.getLast_mem hne)] at h1
      exact h1
    have hrecon2 :
        (List.takeWhile blankLine
            (List.drop (List.takeWhile (optionLine ind) ls).length ls)).dropLast ++
          [['\n']] =
        List.takeWhile blankLine
          (List.drop (List.takeWhile (optionLine ind) ls).length ls) := hrecon
    conv_rhs => rw [← takeWhile_drop (optionLine ind) ls]
    conv_rhs =>
      rw [← takeWhile_drop blankLine (List.drop (List.takeWhile (optionLine ind) ls).length ls)]
    conv_rhs => rw [← hrecon2]
    simp
    have hlen :
        (List.takeWhile blankLine
            (List.drop (List.takeWhile (optionLine ind) ls).length ls)).length - 1 + 1 =
        (List.takeWhile blankLine
            (List.drop (List.takeWhile (optionLine ind) ls).length ls)).length := by
      have hp :
          0 < (List.takeWhile blankLine
            (List.drop (List.takeWhile (optionLine ind) ls).length ls)).length :=
        List.length_pos.mpr hblanks
      omega
    rw [hlen]
  | case6 fuel l ls ind hd opts r1 blanks r2 code hcode hblanks hopts ih =>
    simp only [rstScan, hd, if_neg hcode, if_neg hblanks, if_pos hopts]
    unfold_let r1 opts at ih hopts
    simp only [List.map_cons, List.flatten_cons, rpieceSrc, ih]
    have hne : opts ≠ [] := hopts
    have hrecon :
        (List.takeWhile (optionLine ind) ls).dropLast ++
          [(List.takeWhile (optionLine ind) ls).getLastD []] =
        List.takeWhile (optionLine ind) ls := by
      rw [List.getLastD_eq_getLast?, List.getLast?_eq_getLast _ hne]
      exact List.dropLast_append_getLast hne
    conv_rhs => rw [← takeWhile_drop (optionLine ind) ls]
    conv_rhs => rw [← hrecon]
    simp
    have hlen : (List.takeWhile (optionLine ind) ls).length - 1 + 1 =
        (List.takeWhile (optionLine ind) ls).length := by
      have hp : 0 < (List.takeWhile (optionLine ind) ls).length :=
        List.length_pos.mpr hne
      omega
    rw [hlen]
  | case7 fuel l ls ind hd opts r1 blanks r2 code hcode hblanks hopts ih =>
    simp only [rstScan, hd, if_neg hcode, if_neg hblanks, if_neg hopts]
    simpa [rpieceSrc] using ih

end BlackenDocs

namespace BlackenDocs

/-- How one piece is re-emitted by a fenced-dialect pass. -/
def fenceEmit (fmt : Str → Option Str) : FPiece → Str
  | .raw g => g
  | .blk b => (fenceRender fmt b).1

/-- How one piece is re-emitted by the RST pass (unused default for the
fatal case, which never reaches emission). -/
def rstEmit (fmt : Str → Option Str) : RPiece → Str
  | .raw g => g
  | .blk bef code =>
    match rstRender fmt bef code with
    | some (o, _) => o
    | none => []

/-- The error list a fenced pass produces: one entry per failed block, at
the block's character offset in the pass's input. -/
def fenceErrs (fmt : Str → Option Str) : Nat → List FPiece → List CodeBlockError
  | _, [] => []
  | off, .raw g :: ps => fenceErrs fmt (off + g.length) ps
  | off, .blk b :: ps =>
    let rest := fenceErrs fmt (off + (fpieceSrc (FPiece.blk b)).length) ps
    if fmt (Py.dedent b.code) = none then ⟨off⟩ :: rest else rest

theorem fenceRender_failed (fmt : Str → Option Str) (b : FenceBlock) :
    (fenceRender fmt b).2 = true ↔ fmt (Py.dedent b.code) = none := by
  unfold fenceRender
  cases h : fmt (Py.dedent b.code) <;> simp [h]

theorem fenceGo_fst (fmt : Str → Option Str) (off : Nat) (ps : List FPiece) :
    (fenceGo fmt off ps).1 = (ps.map (fenceEmit fmt)).flatten := by
  induction ps generalizing off with
  | nil => rfl
  | cons p ps ih =>
    cases p with
    | raw g => simp [fenceGo, fenceEmit, ih]
    | blk b => simp [fenceGo, fenceEmit, ih]

theorem fenceGo_snd (fmt : Str → Option Str) (off : Nat) (ps : List FPiece) :
    (fenceGo fmt off ps).2 = fenceErrs fmt off ps := by
  induction ps generalizing off with
  | nil => rfl
  | cons p ps ih =>
    cases p with
    | raw g => simp [fenceGo, fenceErrs, ih]
    | blk b =>
      simp only [fenceGo, fenceErrs, ih, fpieceSrc]
      by_cases h : fmt (Py.dedent b.code) = none
      · rw [if_pos ((fenceRender_failed fmt b).mpr h), if_pos h]
      · rw [if_neg (fun hh => h ((fenceRender_failed fmt b).mp hh)), if_neg h]

theorem rstGo_ok_fst (fmt : Str → Option Str) (off : Nat) (ps : List RPiece)
    (r : Str × List CodeBlockError) (h : rstGo fmt off ps = .ok r) :
    r.1 = (ps.map (rstEmit fmt)).flatten := by
  induction ps generalizing off r with
  | nil =>
    simp only [rstGo] at h
    cases h
    rfl
  | cons p ps ih =>
    cases p with
    | raw g =>
      simp only [rstGo] at h
      cases hrec : rstGo fmt (off + g.length) ps with
      | error e => rw [hrec] at h; simp [Bind.bind, Except.bind] at h
      | ok r2 =>
        rw [hrec] at h
        simp only [Bind.bind, Except.bind, Except.ok.injEq] at h
        subst h
        simp [rstEmit, ih _ _ hrec]
    | blk bef code =>
      simp only [rstGo] at h
      cases hr : rstRender fmt bef code with
      | none => rw [hr] at h; cases h
      | some ofl =>
        rw [hr] at h
        obtain ⟨out, failed⟩ := ofl
        cases hrec : rstGo fmt (off + bef.length + code.length) ps with
        | error e => rw [hrec] at h; simp [Bind.bind, Except.bind] at h
        | ok r2 =>
          rw [hrec] at h
          simp only [Bind.bind, Except.bind, Except.ok.injEq] at h
          subst h
          simp [rstEmit, hr, ih _ _ hrec]

end BlackenDocs

namespace BlackenDocs

/-- C1.  Non-code preservation: each of the four dialect matchers
decomposes any document into pieces that reconstruct it byte for byte;
each dialect pass re-emits the raw (unmatched) pieces verbatim, only the
matched blocks being rewritten; and `format_str` is exactly the chain of
the four passes in source order.  Hence every character outside matched
block spans is byte-identical between a pass's input and its output, at
every stage of the engine. -/
theorem C1_noncode_preservation (fmt : Str → Option Str) :
    (∀ t : Str,
      ((mdSplit t).map fpieceSrc).flatten = t ∧
      ((rstSplit t).map rpieceSrc).flatten = t ∧
      ((latexSplit t).map fpieceSrc).flatten = t ∧
      ((pytexSplit t).map fpieceSrc).flatten = t) ∧
    (∀ t : Str,
      (mdPass fmt t).1 = ((mdSplit t).map (fenceEmit fmt)).flatten ∧
      (latexPass fmt t).1 = ((latexSplit t).map (fenceEmit fmt)).flatten ∧
      (pytexPass fmt t).1 = ((pytexSplit t).map (fenceEmit fmt)).flatten ∧
      (∀ r, rstPass fmt t = .ok r → r.1 = ((rstSplit t).map (rstEmit fmt)).flatten)) ∧
    (∀ s out, format_str fmt s = .ok out →
      ∃ e2, rstPass fmt (mdPass fmt s).1 = .ok (((rstSplit (mdPass fmt s).1).map (rstEmit fmt)).flatten, e2) ∧
        out.1 = (pytexPass fmt
          (latexPass fmt ((rstSplit (mdPass fmt s).1).map (rstEmit fmt)).flatten).1).1) := by
  refine ⟨fun t => ⟨?_, ?_, ?_, ?_⟩, fun t => ⟨?_, ?_, ?_, ?_⟩, ?_⟩
  · rw [mdSplit, fenceScan_src, Py.nlLines_flatten]
  · rw [rstSplit, rstScan_src, Py.nlLines_flatten]
  · rw [latexSplit, fenceScan_src, Py.nlLines_flatten]
  · rw [pytexSplit, fenceScan_src, Py.nlLines_flatten]
  · exact fenceGo_fst fmt 0 _
  · exact fenceGo_fst fmt 0 _
  · exact fenceGo_fst fmt 0 _
  · intro r hr
    exact rstGo_ok_fst fmt 0 _ r hr
  · intro s out hout
    simp only [format_str, Bind.bind, Except.bind] at hout
    cases hrst : rstPass fmt (mdPass fmt s).1 with
    | error e =>
      rw [hrst] at hout
      simp [Bind.bind, Except.bind] at hout
    | ok r2 =>
      rw [hrst] at hout
      simp only [Bind.bind, Except.bind, Except.ok.injEq] at hout
      have h1 := rstGo_ok_fst fmt 0 _ r2 hrst
      refine ⟨r2.2, ?_, ?_⟩
      · rw [← h1]
      · rw [← hout, ← h1]

end BlackenDocs

namespace BlackenDocs

def isRawF : FPiece → Bool
  | .raw _ => true
  | .blk _ => false

def isRawR : RPiece → Bool
  | .raw _ => true
  | .blk _ _ => false

theorem fenceGo_raw (fmt : Str → Option Str) (off : Nat) (ps : List FPiece)
    (h : ps.all isRawF = true) : fenceGo fmt off ps = ((ps.map fpieceSrc).flatten, []) := by
  induction ps generalizing off with
  | nil => rfl
  | cons p ps ih =>
    cases p with
    | raw g =>
      simp only [List.all_cons, Bool.and_eq_true] at h
      simp [fenceGo, ih _ h.2, fpieceSrc]
    | blk b => simp [isRawF] at h

theorem rstGo_raw (fmt : Str → Option Str) (off : Nat) (ps : List RPiece)
    (h : ps.all isRawR = true) : rstGo fmt off ps = .ok ((ps.map rpieceSrc).flatten, []) := by
  induction ps generalizing off with
  | nil => rfl
  | cons p ps ih =>
    cases p with
    | raw g =>
      simp only [List.all_cons, Bool.and_eq_true] at h
      simp [rstGo, ih _ h.2, rpieceSrc, Bind.bind, Except.bind]
    | blk bef code => simp [isRawR] at h

/-- `format_str` unfolded once through its do-notation. -/
theorem format_str_eq (fmt : Str → Option Str) (src : Str) :
    format_str fmt src =
      match rstPass fmt (mdPass fmt src).1 with
      | .error e => .error e
      | .ok r2 =>
        .ok ((pytexPass fmt (latexPass fmt r2.1).1).1,
          ((mdPass fmt src).2 ++ r2.2) ++ (latexPass fmt r2.1).2 ++
            (pytexPass fmt (latexPass fmt r2.1).1).2) := by
  unfold format_str
  cases h : rstPass fmt (mdPass fmt src).1 <;> simp [Bind.bind, Except.bind, h]

theorem rstGo_fatal (fmt : Str → Option Str) (off : Nat) (ps : List RPiece)
    (bef code : Str) (hmem : RPiece.blk bef code ∈ ps)
    (hr : rstRender fmt bef code = none) : rstGo fmt off ps = .error () := by
  induction ps generalizing off with
  | nil => cases hmem
  | cons p ps ih =>
    cases p with
    | raw g =>
      have : RPiece.blk bef code ∈ ps := by
        cases hmem with
        | tail _ h => exact h
      simp [rstGo, ih _ this, Bind.bind, Except.bind]
    | blk b c =>
      by_cases hbc : b = bef ∧ c = code
      · obtain ⟨rfl, rfl⟩ := hbc
        simp [rstGo, hr]
      · have : RPiece.blk bef code ∈ ps := by
          cases hmem with
          | head => exact absurd ⟨rfl, rfl⟩ hbc
          | tail _ h => exact h
        simp only [rstGo]
        cases hrr : rstRender fmt b c with
        | none => rfl
        | some ofl =>
          obtain ⟨o, fl⟩ := ofl
          simp [ih _ this, Bind.bind, Except.bind]

end BlackenDocs

namespace BlackenDocs

/-- A formatter behaving like black on the four fragments the engine
submits for `docC5`/`docC5a`: it reformats `a=1` and `b=2` and leaves the
already-formatted pythontex block bodies unchanged. -/
def fmtC5 (s : Str) : Option Str :=
  if s = str "a=1\n" then some (str "a = 1\n") else
  if s = str "a = 1\n\nb=2\n" then some (str "a = 1\n\nb = 2\n") else
  if s = str "s = '''\n .. code-block:: python\n\n    a = 1\n\n    b=2\n'''\n" then
    some (str "s = '''\n .. code-block:: python\n\n    a = 1\n\n    b=2\n'''\n") else
  if s = str "s = '''\n .. code-block:: python\n\n    a = 1\n\n    b = 2\n'''\n" then
    some (str "s = '''\n .. code-block:: python\n\n    a = 1\n\n    b = 2\n'''\n") else
  none

/-- A pythontex block containing a Python string literal that embeds an RST
directive whose code region is cut short by a one-space whitespace-only
line.  The pythontex pass's `textwrap.dedent` blanks that line, so the
next run's RST matcher captures a longer region. -/
def docC5 : Str :=
  str "\\begin\x7bpyblock\x7d\ns = '''\n .. code-block:: python\n\n    a=1\n \n    b=2\n'''\n\\end\x7bpyblock\x7d\n"

def docC5a : Str :=
  str "\\begin\x7bpyblock\x7d\ns = '''\n .. code-block:: python\n\n    a = 1\n\n    b=2\n'''\n\\end\x7bpyblock\x7d\n"

def docC5b : Str :=
  str "\\begin\x7bpyblock\x7d\ns = '''\n .. code-block:: python\n\n    a = 1\n\n    b = 2\n'''\n\\end\x7bpyblock\x7d\n"

/-- C5, counterexample.  A document on which the first application of
`format_str` succeeds with an empty error list, yet the second application
changes the text again (also with no errors): the pythontex pass's dedent
normalises the whitespace-only line inside the string literal, and the
next round's RST pass then matches a larger directive region and reformats
`b=2`.  The formatter oracle is consulted only on the four fragments shown
and behaves like black on each. -/
theorem C5_counterexample :
    format_str fmtC5 docC5 = .ok (docC5a, []) ∧
    format_str fmtC5 docC5a = .ok (docC5b, []) ∧
    docC5a ≠ docC5b :=
  ⟨rfl, rfl, by decide⟩

/-- C5, amended.  Idempotence as claimed holds for documents in which no
dialect matcher finds a block: the engine returns such a document
unchanged with no errors, so a second application returns the same.  (The
counterexample shows the claim fails for general documents with empty
error lists.) -/
theorem C5_amended (fmt : Str → Option Str) (s : Str)
    (h1 : (mdSplit s).all isRawF = true) (h2 : (rstSplit s).all isRawR = true)
    (h3 : (latexSplit s).all isRawF = true) (h4 : (pytexSplit s).all isRawF = true) :
    format_str fmt s = .ok (s, []) ∧
    (∀ r, format_str fmt s = .ok r → format_str fmt r.1 = .ok (r.1, r.2)) := by
  have hmd : mdPass fmt s = (s, []) := by
    rw [mdPass, fenceGo_raw fmt 0 _ h1]
    rw [show ((mdSplit s).map fpieceSrc).flatten = s from by
      rw [mdSplit, fenceScan_src, Py.nlLines_flatten]]
  have hrst : rstPass fmt s = .ok (s, []) := by
    rw [rstPass, rstGo_raw fmt 0 _ h2]
    rw [show ((rstSplit s).map rpieceSrc).flatten = s from by
      rw [rstSplit, rstScan_src, Py.nlLines_flatten]]
  have hlatex : latexPass fmt s = (s, []) := by
    rw [latexPass, fenceGo_raw fmt 0 _ h3]
    rw [show ((latexSplit s).map fpieceSrc).flatten = s from by
      rw [latexSplit, fenceScan_src, Py.nlLines_flatten]]
  have hpytex : pytexPass fmt s = (s, []) := by
    rw [pytexPass, fenceGo_raw fmt 0 _ h4]
    rw [show ((pytexSplit s).map fpieceSrc).flatten = s from by
      rw [pytexSplit, fenceScan_src, Py.nlLines_flatten]]
  have hfs : format_str fmt s = .ok (s, []) := by
    rw [format_str_eq, hmd]
    simp only [hrst, hlatex, hpytex, hmd]
    simp
  refine ⟨hfs, ?_⟩
  intro r hr
  rw [hfs] at hr
  cases hr
  exact hfs

/-- Witness for `C5_amended` at a concrete match-free document. -/
theorem C5_amended_witness :
    format_str (fun _ => none) (str "hello world\n") = .ok (str "hello world\n", []) :=
  (C5_amended (fun _ => none) (str "hello world\n") (by decide) (by decide)
    (by decide) (by decide)).1

end BlackenDocs

namespace BlackenDocs

/-- C6.  A matched directive-block whose code region yields no `INDENT_RE`
candidate (all its lines are blank) makes `min()` raise: the RST pass — and
with it `format_str` — aborts fatally for the whole document, regardless
of the formatter; no per-block `CodeBlockError` is recorded (the `.error`
result carries no error list) and the failure is never silently ignored.
The concrete document `".. code-block:: python\n\n"` exhibits this: the
regex backtracks the blank-line run to give the code group one bare
newline, which has no inferable indent. -/
theorem C6_all_blank_fatal :
    (∀ (fmt : Str → Option Str) (s : Str) (bef code : Str),
      RPiece.blk bef code ∈ rstSplit s → indentCandidates code = [] →
      rstPass fmt s = .error ()) ∧
    (∀ fmt : Str → Option Str,
      format_str fmt (str ".. code-block:: python\n\n") = .error ()) := by
  constructor
  · intro fmt s bef code hmem hcand
    have hr : rstRender fmt bef code = none := by
      unfold rstRender
      rw [hcand]
      rfl
    exact rstGo_fatal fmt 0 _ bef code hmem hr
  · intro fmt
    have hmd : mdPass fmt (str ".. code-block:: python\n\n") =
        (str ".. code-block:: python\n\n", []) := by
      rw [mdPass, fenceGo_raw fmt 0 _ (by decide)]
      rw [show ((mdSplit (str ".. code-block:: python\n\n")).map fpieceSrc).flatten =
          str ".. code-block:: python\n\n" from by
        rw [mdSplit, fenceScan_src, Py.nlLines_flatten]]
    have hrst : rstPass fmt (str ".. code-block:: python\n\n") = .error () := by
      have hmem : RPiece.blk (str ".. code-block:: python\n") (str "\n") ∈
          rstSplit (str ".. code-block:: python\n\n") := by decide
      have hr : rstRender fmt (str ".. code-block:: python\n") (str "\n") = none := by
        unfold rstRender
        rw [show indentCandidates (str "\n") = [] from by decide]
        rfl
      exact rstGo_fatal fmt 0 _ _ _ hmem hr
    rw [format_str_eq, hmd]
    simp only [hrst]

/-- Witness for `C6_all_blank_fatal`: its first component applied to a
concrete document and block. -/
theorem C6_all_blank_fatal_witness :
    rstPass (fun _ => none) (str ".. code-block:: python\n\n") = .error () :=
  C6_all_blank_fatal.1 (fun _ => none) _ (str ".. code-block:: python\n") (str "\n")
    (by decide) (by decide)

end BlackenDocs

namespace Py

theorem nlLines_wf (body s : Str) (h : '\n' ∉ body) :
    nlLines (body ++ '\n' :: s) = (body ++ ['\n']) :: nlLines s := by
  induction body with
  | nil => simp [nlLines]
  | cons c cs ih =>
    have hc : ¬ c = '\n' := fun hceq => h (by rw [hceq]; exact List.mem_cons_self _ _)
    have hcs : '\n' ∉ cs := fun hin => h (List.mem_cons_of_mem _ hin)
    simp only [List.cons_append, nlLines, if_neg hc]
    rw [show cs.append ('\n' :: s) = cs ++ '\n' :: s from rfl, ih hcs]

theorem nlLines_of_lines (L : List Str)
    (h : ∀ l ∈ L, ∃ body, l = body ++ ['\n'] ∧ '\n' ∉ body) :
    nlLines L.flatten = L := by
  induction L with
  | nil => rfl
  | cons l t ih =>
    obtain ⟨body, rfl, hnb⟩ := h l (List.mem_cons_self _ _)
    have ht := ih (fun x hx => h x (List.mem_cons_of_mem _ hx))
    simp only [List.flatten_cons, List.append_assoc, List.singleton_append]
    rw [nlLines_wf body _ hnb, ht]

theorem splitlinesKeep_wf (body s : Str) (h : ∀ c ∈ body, ¬ isLineBreak c) :
    splitlinesKeep (body ++ '\n' :: s) = (body ++ ['\n']) :: splitlinesKeep s := by
  induction body with
  | nil =>
    rw [List.nil_append]
    rw [splitlinesKeep]
    · simp [isLineBreak, pyLineBreaks]
    · intro cs hcr _
      exact absurd hcr (by decide)
  | cons c cs ih =>
    have hc : ¬ isLineBreak c = true := h c (List.mem_cons_self _ _)
    have hcd : ¬ c = '\x0d' := by
      intro hceq
      exact hc (by rw [hceq]; decide)
    have hcs : ∀ x ∈ cs, ¬ isLineBreak x = true := fun x hx => h x (List.mem_cons_of_mem _ hx)
    rw [List.cons_append]
    rw [splitlinesKeep]
    · rw [if_neg hc, ih hcs]
      simp
    · intro cs2 hcr _
      exact absurd hcr hcd

theorem splitlinesKeep_of_lines (L : List Str)
    (h : ∀ l ∈ L, ∃ body, l = body ++ ['\n'] ∧ ∀ c ∈ body, ¬ isLineBreak c) :
    splitlinesKeep L.flatten = L := by
  induction L with
  | nil => rfl
  | cons l t ih =>
    obtain ⟨body, rfl, hnb⟩ := h l (List.mem_cons_self _ _)
    have ht := ih (fun x hx => h x (List.mem_cons_of_mem _ hx))
    simp only [List.flatten_cons, List.append_assoc, List.singleton_append]
    rw [splitlinesKeep_wf body _ hnb, ht]

end Py

namespace BlackenDocs

/-- A well-shaped code line for the round-trip arguments: the block's
indent (all spaces) followed by a nonempty body whose first character is
not whitespace and which contains no line-break characters, ending in a
newline. -/
def tidyLine (ind l : Str) : Prop :=
  ∃ body : Str, l = ind ++ body ++ ['\n'] ∧ body ≠ [] ∧
    ¬ Py.isSpace (body.headD ' ') ∧ ∀ c ∈ body, ¬ Py.isLineBreak c

/-- Every line of the code region is a bare newline or a tidy line. -/
def GoodCode (ind code : Str) : Prop :=
  ∀ l ∈ Py.nlLines code, l = ['\n'] ∨ tidyLine ind l

end BlackenDocs

namespace BlackenDocs

theorem blank_isSpace (c : Char) (h : Py.isBlankChar c = true) : Py.isSpace c = true := by
  simp only [Py.isBlankChar, Bool.or_eq_true, decide_eq_true_eq] at h
  rcases h with h | h <;> subst h <;> decide

theorem takeWhile_all_append (p : Char → Bool) (a b : Str) (ha : ∀ c ∈ a, p c = true) :
    (a ++ b).takeWhile p = a ++ b.takeWhile p := by
  induction a with
  | nil => simp
  | cons c cs ih =>
    simp only [List.cons_append, List.takeWhile_cons, ha c (List.mem_cons_self _ _)]
    simp [ih (fun x hx => ha x (List.mem_cons_of_mem _ hx))]

theorem tidy_getLast (ind body : Str) :
    (ind ++ body ++ ['\n']).getLast? = some '\n' :=
  List.getLast?_concat _

theorem tidy_dropLast (ind body : Str) :
    (ind ++ body ++ ['\n']).dropLast = ind ++ body :=
  List.dropLast_concat ..

theorem tidy_not_all_blank (ind body : Str) (hb : body ≠ [])
    (hh : ¬ Py.isSpace (body.headD ' ') = true) :
    ¬ (ind ++ body).all Py.isBlankChar = true := by
  intro hall
  rw [List.all_append, Bool.and_eq_true] at hall
  cases body with
  | nil => exact hb rfl
  | cons c cs =>
    have := hall.2
    simp only [List.all_cons, Bool.and_eq_true] at this
    exact hh (blank_isSpace c this.1)

/-- On a good code region the whitespace-only-line normalisation of
`textwrap.dedent` is the identity. -/
theorem blankLineStep_nl : Py.blankLineStep ['\n'] = ['\n'] := by decide

theorem blankLineStep_tidy (ind body : Str) (hb : body ≠ [])
    (hh : ¬ Py.isSpace (body.headD ' ') = true) :
    Py.blankLineStep (ind ++ body ++ ['\n']) = ind ++ body ++ ['\n'] := by
  unfold Py.blankLineStep
  rw [if_pos (tidy_getLast ind body)]
  rw [tidy_dropLast]
  rw [if_neg]
  intro hcon
  exact tidy_not_all_blank ind body hb hh hcon.2

theorem blankWsLines_good (ind code : Str) (hg : GoodCode ind code) :
    Py.blankWsLines code = code := by
  unfold Py.blankWsLines
  have hmap : ∀ l ∈ Py.nlLines code, Py.blankLineStep l = l := by
    intro l hl
    rcases hg l hl with rfl | ⟨body, rfl, hb, hh, _⟩
    · exact blankLineStep_nl
    · exact blankLineStep_tidy ind body hb hh
  calc ((Py.nlLines code).map Py.blankLineStep).flatten
      = ((Py.nlLines code).map id).flatten := by
        exact congrArg List.flatten (List.map_congr_left hmap)
    _ = code := by rw [List.map_id, Py.nlLines_flatten]

end BlackenDocs

namespace BlackenDocs

theorem space_isBlank (ind : Str) (hind : ind.all (· = ' ') = true) :
    ∀ c ∈ ind, Py.isBlankChar c = true := by
  intro c hc
  have := (List.all_eq_true.mp hind) c hc
  simp only [decide_eq_true_eq] at this
  subst this
  decide

theorem tidy_run (ind body : Str) (hind : ind.all (· = ' ') = true) (hb : body ≠ [])
    (hh : ¬ Py.isSpace (body.headD ' ') = true) :
    (ind ++ body ++ ['\n']).takeWhile Py.isBlankChar = ind := by
  rw [List.append_assoc, takeWhile_all_append _ _ _ (space_isBlank ind hind)]
  cases body with
  | nil => exact absurd rfl hb
  | cons c cs =>
    have hcb : ¬ Py.isBlankChar c = true := fun hbc => hh (blank_isSpace c hbc)
    simp [List.takeWhile_cons, hcb]

theorem leadingWsRuns_good (ind code : Str) (hind : ind.all (· = ' ') = true)
    (hg : GoodCode ind code) :
    ∀ r ∈ Py.leadingWsRuns (Py.blankWsLines code), r = ind := by
  rw [blankWsLines_good ind code hg]
  intro r hr
  unfold Py.leadingWsRuns at hr
  rw [List.mem_filterMap] at hr
  obtain ⟨l, hl, hfl⟩ := hr
  rcases hg l hl with rfl | ⟨body, rfl, hb, hh, hnb⟩
  · rw [show Py.leadingRunStep ['\n'] = none from by decide] at hfl
    cases hfl
  · unfold Py.leadingRunStep at hfl
    rw [tidy_run ind body hind hb hh] at hfl
    have hdrop : (ind ++ body ++ ['\n']).drop ind.length = body ++ ['\n'] := by
      rw [List.append_assoc, List.drop_left]
    rw [hdrop] at hfl
    cases body with
    | nil => exact absurd rfl hb
    | cons c cs =>
      have hcn : ¬ c = '\n' := by
        intro hceq
        exact hnb c (List.mem_cons_self _ _) (by rw [hceq]; decide)
      simp only [List.cons_append, if_neg hcn, Option.some.injEq] at hfl
      exact hfl.symm

theorem commonPre_self (a : Str) : Py.commonPre a a = a := by
  induction a with
  | nil => rfl
  | cons c cs ih => simp [Py.commonPre, ih]

theorem foldl_commonPre_const (a : Str) (rs : List Str) (h : ∀ r ∈ rs, r = a) :
    rs.foldl Py.commonPre a = a := by
  induction rs with
  | nil => rfl
  | cons r t ih =>
    rw [h r (List.mem_cons_self _ _)]
    simp only [List.foldl_cons, commonPre_self]
    exact ih (fun x hx => h x (List.mem_cons_of_mem _ hx))

/-- On a good code region the dedent margin is either empty (no content
line) or exactly the block indent. -/
theorem dedentMargin_good (ind code : Str) (hind : ind.all (· = ' ') = true)
    (hg : GoodCode ind code) :
    Py.dedentMargin code = [] ∨ Py.dedentMargin code = ind := by
  unfold Py.dedentMargin
  cases hrs : Py.leadingWsRuns (Py.blankWsLines code) with
  | nil => exact Or.inl rfl
  | cons i rest =>
    right
    have hall := leadingWsRuns_good ind code hind hg
    rw [hrs] at hall
    rw [hall i (List.mem_cons_self _ _)]
    exact foldl_commonPre_const ind rest (fun x hx => hall x (List.mem_cons_of_mem _ hx))

end BlackenDocs

namespace BlackenDocs

theorem indentBy_nil (s : Str) : Py.indentBy [] s = s := by
  unfold Py.indentBy
  have hmap : ∀ l ∈ Py.splitlinesKeep s, Py.indentStep [] l = l := by
    intro l _
    unfold Py.indentStep
    split <;> simp
  rw [List.map_congr_left hmap]
  simp only [List.map_id']
  rw [Py.splitlinesKeep_flatten]

theorem good_lines_wf (ind code : Str) (hind : ind.all (· = ' ') = true)
    (hg : GoodCode ind code) :
    ∀ l ∈ Py.nlLines code, ∃ body, l = body ++ ['\n'] ∧ ∀ c ∈ body, ¬ Py.isLineBreak c := by
  intro l hl
  rcases hg l hl with rfl | ⟨body, rfl, _, _, hnb⟩
  · exact ⟨[], rfl, by intro c hc; cases hc⟩
  · refine ⟨ind ++ body, by simp, ?_⟩
    intro c hc
    rcases List.mem_append.mp hc with hc | hc
    · have := (List.all_eq_true.mp hind) c hc
      simp only [decide_eq_true_eq] at this
      subst this
      decide
    · exact hnb c hc

theorem tidy_mem_runs (ind code : Str) (hind : ind.all (· = ' ') = true)
    (hg : GoodCode ind code) (l : Str) (hl : l ∈ Py.nlLines code) (ht : tidyLine ind l) :
    ind ∈ Py.leadingWsRuns (Py.blankWsLines code) := by
  rw [blankWsLines_good ind code hg]
  unfold Py.leadingWsRuns
  rw [List.mem_filterMap]
  refine ⟨l, hl, ?_⟩
  obtain ⟨body, rfl, hb, hh, hnb⟩ := ht
  unfold Py.leadingRunStep
  rw [tidy_run ind body hind hb hh]
  have hdrop : (ind ++ body ++ ['\n']).drop ind.length = body ++ ['\n'] := by
    rw [List.append_assoc, List.drop_left]
  rw [hdrop]
  cases body with
  | nil => exact absurd rfl hb
  | cons c cs =>
    have hcn : ¬ c = '\n' := by
      intro hceq
      exact hnb c (List.mem_cons_self _ _) (by rw [hceq]; decide)
    simp only [List.cons_append, if_neg hcn]

/-- The margin is exactly the indent as soon as the region has one tidy
line. -/
theorem dedentMargin_good_of_tidy (ind code : Str) (hind : ind.all (· = ' ') = true)
    (hg : GoodCode ind code) (l : Str) (hl : l ∈ Py.nlLines code) (ht : tidyLine ind l) :
    Py.dedentMargin code = ind := by
  have hmem := tidy_mem_runs ind code hind hg l hl ht
  cases hrs : Py.leadingWsRuns (Py.blankWsLines code) with
  | nil => rw [hrs] at hmem; cases hmem
  | cons i rest =>
    have hall := leadingWsRuns_good ind code hind hg
    rw [hrs] at hall
    have hDM : Py.dedentMargin code = rest.foldl Py.commonPre i := by
      unfold Py.dedentMargin
      rw [hrs]
    rw [hDM, hall i (List.mem_cons_self _ _)]
    exact foldl_commonPre_const ind rest (fun x hx => hall x (List.mem_cons_of_mem _ hx))
end BlackenDocs

namespace BlackenDocs

theorem indentStep_nl (pre : Str) : Py.indentStep pre ['\n'] = ['\n'] := by
  unfold Py.indentStep
  rw [if_neg]
  simp
  decide

theorem indentStep_body (pre body : Str) (hb : body ≠ [])
    (hh : ¬ Py.isSpace (body.headD ' ') = true) :
    Py.indentStep pre (body ++ ['\n']) = pre ++ (body ++ ['\n']) := by
  unfold Py.indentStep
  rw [if_pos]
  cases body with
  | nil => exact absurd rfl hb
  | cons c cs =>
    simp only [List.cons_append, List.any_cons, Bool.or_eq_true]
    left
    simpa using hh

/-- Round trip: on a good code region, `textwrap.indent` with the block's
indent undoes `textwrap.dedent`. -/
theorem indentBy_dedent_good (ind code : Str) (hind : ind.all (· = ' ') = true)
    (hg : GoodCode ind code) :
    Py.indentBy ind (Py.dedent code) = code := by
  by_cases hie : ind = []
  · subst hie
    rw [indentBy_nil]
    unfold Py.dedent
    rw [blankWsLines_good [] code hg]
    rcases dedentMargin_good [] code (by decide) hg with hm | hm <;> rw [hm] <;> simp
  · -- nonempty indent
    by_cases htidy : ∃ l ∈ Py.nlLines code, tidyLine ind l
    · obtain ⟨l0, hl0, ht0⟩ := htidy
      have hm := dedentMargin_good_of_tidy ind code hind hg l0 hl0 ht0
      unfold Py.dedent
      rw [blankWsLines_good ind code hg, hm, if_neg hie]
      -- the stripped line list
      have hstrip : ∀ l ∈ Py.nlLines code,
          Py.marginStrip ind l = if l = ['\n'] then ['\n'] else l.drop ind.length := by
        intro l hl
        rcases hg l hl with rfl | ⟨body, rfl, hb, hh, hnb⟩
        · unfold Py.marginStrip
          rw [if_neg, if_pos rfl]
          rw [List.isPrefixOf_iff_prefix]
          intro hpre
          cases ind with
          | nil => exact hie rfl
          | cons c cs =>
            have hc : c = ' ' := by
              have := (List.all_eq_true.mp hind) c (List.mem_cons_self _ _)
              simpa using this
            obtain ⟨t, hteq⟩ := hpre
            rw [List.cons_append] at hteq
            injection hteq with h1 _
            rw [hc] at h1
            exact absurd h1 (by decide)
        · unfold Py.marginStrip
          have hifn : ¬ (ind ++ body ++ ['\n'] = ['\n']) := by
            intro heq
            have hlen := congrArg List.length heq
            simp only [List.length_append, List.length_cons, List.length_nil] at hlen
            have hip : 0 < ind.length := List.length_pos.mpr hie
            omega
          rw [if_pos, if_neg hifn]
          rw [List.isPrefixOf_iff_prefix, List.append_assoc]
          exact List.prefix_append ind _
      -- rewrite the dedented text as a list of well-formed lines
      rw [List.map_congr_left hstrip]
      set L' := (Py.nlLines code).map
        (fun l => if l = ['\n'] then ['\n'] else l.drop ind.length) with hL'
      have hL'lines : ∀ l ∈ L', ∃ body, l = body ++ ['\n'] ∧
          (body ≠ [] → ¬ Py.isSpace (body.headD ' ') = true) ∧
          ∀ c ∈ body, ¬ Py.isLineBreak c := by
        intro l hl
        rw [hL', List.mem_map] at hl
        obtain ⟨l0, hl0, rfl⟩ := hl
        rcases hg l0 hl0 with rfl | ⟨body, rfl, hb, hh, hnb⟩
        · exact ⟨[], by simp, fun hf => absurd rfl hf, by intro c hc; cases hc⟩
        · have hifn : ¬ (ind ++ body ++ ['\n'] = ['\n']) := by
            intro heq
            have hlen := congrArg List.length heq
            simp only [List.length_append, List.length_cons, List.length_nil] at hlen
            have hip : 0 < ind.length := List.length_pos.mpr hie
            omega
          rw [if_neg hifn]
          have hdrop : (ind ++ body ++ ['\n']).drop ind.length = body ++ ['\n'] := by
            rw [List.append_assoc, List.drop_left]
          rw [hdrop]
          exact ⟨body, rfl, fun _ => hh, hnb⟩
      have hsplit : Py.splitlinesKeep L'.flatten = L' := by
        apply Py.splitlinesKeep_of_lines
        intro l hl
        obtain ⟨body, rfl, _, hnb⟩ := hL'lines l hl
        exact ⟨body, rfl, hnb⟩
      unfold Py.indentBy
      rw [hsplit]
      -- re-add the indent on each line
      have hback : ∀ l0 ∈ Py.nlLines code,
          Py.indentStep ind ((fun l => if l = ['\n'] then ['\n'] else l.drop ind.length) l0) =
            l0 := by
        intro l0 hl0
        rcases hg l0 hl0 with rfl | ⟨body, rfl, hb, hh, hnb⟩
        · beta_reduce
          rw [if_pos rfl]
          exact indentStep_nl ind
        · have hifn : ¬ (ind ++ body ++ ['\n'] = ['\n']) := by
            intro heq
            have hlen := congrArg List.length heq
            simp only [List.length_append, List.length_cons, List.length_nil] at hlen
            have hip : 0 < ind.length := List.length_pos.mpr hie
            omega
          beta_reduce
          rw [if_neg hifn]
          have hdrop : (ind ++ body ++ ['\n']).drop ind.length = body ++ ['\n'] := by
            rw [List.append_assoc, List.drop_left]
          rw [hdrop, indentStep_body ind body hb hh, List.append_assoc]
      rw [hL', List.map_map, Function.comp_def]
      rw [List.map_congr_left hback]
      simp only [List.map_id']
      rw [Py.nlLines_flatten]
    · -- no tidy line: every line is a bare newline, nothing changes
      push_neg at htidy
      have hall : ∀ l ∈ Py.nlLines code, l = ['\n'] := by
        intro l hl
        rcases hg l hl with rfl | ht
        · rfl
        · exact absurd ht (htidy l hl)
      unfold Py.dedent
      rw [blankWsLines_good ind code hg]
      have hruns : Py.leadingWsRuns (Py.blankWsLines code) = [] := by
        rw [blankWsLines_good ind code hg]
        unfold Py.leadingWsRuns
        rw [List.filterMap_eq_nil]
        intro l hl
        rw [hall l hl]
        decide
      have hm : Py.dedentMargin code = [] := by
        unfold Py.dedentMargin
        rw [hruns]
      rw [hm, if_pos rfl]
      unfold Py.indentBy
      have hsplit : Py.splitlinesKeep code = Py.nlLines code := by
        conv_lhs => rw [← Py.nlLines_flatten code]
        apply Py.splitlinesKeep_of_lines
        intro l hl
        rw [hall l hl]
        exact ⟨[], rfl, by intro c hc; cases hc⟩
      rw [hsplit]
      have hmap : ∀ l ∈ Py.nlLines code, Py.indentStep ind l = l := by
        intro l hl
        rw [hall l hl]
        exact indentStep_nl ind
      rw [List.map_congr_left hmap]
      simp only [List.map_id']
      rw [Py.nlLines_flatten]

end BlackenDocs

namespace BlackenDocs

/-- A formatter that rejects the fragment `x=(`. -/
def fmtC4 (s : Str) : Option Str := if s = str "x=(\n" then none else some s

/-- A fenced markdown block whose code is indented four spaces deeper than
the fence and is rejected by the formatter. -/
def docC4 : Str := str "```python\n    x=(\n```\n"

/-- C4, counterexample.  The failing block's code bytes are NOT left
unmodified: `_md_match` dedents before calling the formatter and reindents
with the fence indent afterwards even on the failure path, so the
four-space inner indentation is lost although the only block failed (the
error is duly recorded at offset 0). -/
theorem C4_counterexample :
    format_str fmtC4 docC4 = .ok (str "```python\nx=(\n```\n", [⟨0⟩]) ∧
    str "```python\nx=(\n```\n" ≠ docC4 :=
  ⟨rfl, by decide⟩

/-- C4, amended.  On formatter failure the engine records a
`CodeBlockError` at the block's character offset in the pass's input and
keeps formatting all sibling blocks independently; the failing block's
emitted text is `before ++ indent(dedent(code), fence-indent) ++ after`,
which is byte-identical to the original span exactly when the dedent/
reindent round-trips — in particular whenever every code line is either a
bare newline or the fence indent followed by non-whitespace-led content. -/
theorem C4_amended (fmt : Str → Option Str) :
    (∀ b : FenceBlock, b.ind.all (· = ' ') = true →
      GoodCode b.ind b.code →
      fmt (Py.dedent b.code) = none →
      (fenceRender fmt b).1 = fpieceSrc (.blk b) ∧ (fenceRender fmt b).2 = true) ∧
    (∀ t, (mdPass fmt t).1 = ((mdSplit t).map (fenceEmit fmt)).flatten ∧
      (mdPass fmt t).2 = fenceErrs fmt 0 (mdSplit t)) := by
  constructor
  · intro b hind hg hfail
    simp only [fenceRender, hfail]
    constructor
    · show b.bef ++ Py.indentBy b.ind (Py.dedent b.code) ++ b.aft = _
      rw [indentBy_dedent_good b.ind b.code hind hg]
      rfl
    · trivial
  · intro t
    exact ⟨fenceGo_fst fmt 0 _, fenceGo_snd fmt 0 _⟩

/-- Witness for `C4_amended`: a concrete failing block with well-shaped
code passes through byte-identically while flagging the error. -/
theorem C4_amended_witness :
    (fenceRender (fun _ => none) ⟨str "```python\n", [], str "x=(\n", str "```"⟩).1 =
      fpieceSrc (.blk ⟨str "```python\n", [], str "x=(\n", str "```"⟩) ∧
    (fenceRender (fun _ => none) ⟨str "```python\n", [], str "x=(\n", str "```"⟩).2 = true :=
  (C4_amended (fun _ => none)).1 ⟨str "```python\n", [], str "x=(\n", str "```"⟩
    (by decide)
    (by
      intro l hl
      have hl' : l = str "x=(\n" := by
        rw [show Py.nlLines (str "x=(\n") = [str "x=(\n"] from by decide] at hl
        simpa using hl
      subst hl'
      right
      exact ⟨str "x=(", by decide, by decide, by decide, by decide⟩)
    rfl

end BlackenDocs

namespace BlackenDocs

/-- A formatter that accepts `a=1` and rejects everything else. -/
def fmtC3 (s : Str) : Option Str :=
  if s = str "a=1\n" then some (str "a = 1\n") else none

/-- Two fenced blocks; the second contains unterminated code. -/
def docC3 : Str := str "```python\na=1\n```\nx\n```python\nb=(\n```\n"

/-- `docC3` after the engine: first block formatted, second left as-is. -/
def mixedC3 : Str := str "```python\na = 1\n```\nx\n```python\nb=(\n```\n"

/-- C3, counterexample.  There is no strict mode in the engine: on a
document where one block fails, `format_str` still writes back the other
block's formatted code and returns the changed text together with the
error list — it never discards all changes.  (Nor is any mode argument
present: the engine's behaviour is fixed.) -/
theorem C3_counterexample :
    format_str fmtC3 docC3 = .ok (mixedC3, [⟨20⟩]) ∧ mixedC3 ≠ docC3 :=
  ⟨rfl, by decide⟩

/-- C3, amended.  The two behaviours exist but are hardcoded at different
levels rather than being a caller-configurable mode: `format_str` is
unconditionally permissive (every block is rendered independently, raw
text kept verbatim, errors collected), while `format_file` unconditionally
discards everything when the error list is nonempty — it reports each
error, returns exit code 1 and writes nothing. -/
theorem C3_amended :
    (∀ (contents : Str) (res : Str × List CodeBlockError) (check diff : Bool),
      res.2 ≠ [] → format_file contents res check diff = ⟨none, res.2.length, true⟩) ∧
    (∀ (fmt : Str → Option Str) (t : Str),
      (mdPass fmt t).1 = ((mdSplit t).map (fenceEmit fmt)).flatten ∧
      (mdPass fmt t).2 = fenceErrs fmt 0 (mdSplit t)) ∧
    format_file docC3 (mixedC3, [⟨20⟩]) false false = ⟨none, 1, true⟩ := by
  refine ⟨?_, ?_, by decide⟩
  · intro contents res check diff h
    unfold format_file
    rw [if_pos h]
  · intro fmt t
    exact ⟨fenceGo_fst fmt 0 _, fenceGo_snd fmt 0 _⟩

/-- Witness for `C3_amended`: the file-level discard at a concrete input. -/
theorem C3_amended_witness :
    format_file (str "x") (str "y", [⟨0⟩]) false false = ⟨none, 1, true⟩ :=
  C3_amended.1 (str "x") (str "y", [⟨0⟩]) false false (by decide)

end BlackenDocs

namespace BlackenDocs

/-! ### C2: the RST min-indent / trailing-run round trip -/

/-- A code line whose indent is a run of `n ≥ 1` spaces followed by a tidy
body (per-line version of `tidyLine` with a line-specific indent width). -/
def varTidy (l : Str) : Prop :=
  ∃ n : Nat, 1 ≤ n ∧ tidyLine (List.replicate n ' ') l

/-- Every line of the code region is a bare newline or a space-indented
tidy line (the indent width may vary from line to line). -/
def VarCode (code : Str) : Prop :=
  ∀ l ∈ Py.nlLines code, l = ['\n'] ∨ varTidy l

/-- The specification's per-line quantity: for a non-blank line, the length
of its leading whitespace; nothing for a whitespace-only line.  This
definition follows the claim's words, for comparison with the engine's
`indentCandidates`/`dedentMargin`. -/
def specIndentLen (l : Str) : Option Nat :=
  if l.all Py.isSpace then none else some (l.takeWhile Py.isSpace).length

/-- The specification's block quantity: the minimum leading-whitespace
length over the non-blank code lines (`none` when there is none). -/
def specMinIndent (code : Str) : Option Nat :=
  match (Py.nlLines code).filterMap specIndentLen with
  | [] => none
  | n :: rest => some (rest.foldl min n)

theorem rep_space_all (n : Nat) : (List.replicate n ' ').all (· = ' ') = true := by
  rw [List.all_eq_true]
  intro c hc
  simp [List.eq_of_mem_replicate hc]

theorem rep_space_isSpace (n : Nat) : ∀ c ∈ List.replicate n ' ', Py.isSpace c = true := by
  intro c hc
  rw [List.eq_of_mem_replicate hc]
  decide

theorem specIndentLen_var (n : Nat) (body : Str) (hb : body ≠ [])
    (hh : ¬ Py.isSpace (body.headD ' ') = true) :
    specIndentLen (List.replicate n ' ' ++ body ++ ['\n']) = some n := by
  cases body with
  | nil => exact absurd rfl hb
  | cons c cs =>
    simp only [List.headD_cons] at hh
    unfold specIndentLen
    rw [if_neg]
    · rw [List.append_assoc,
        takeWhile_all_append _ _ _ (rep_space_isSpace n)]
      simp [List.takeWhile_cons, hh]
    · intro hall
      rw [List.append_assoc, List.all_append, Bool.and_eq_true] at hall
      have h2 := hall.2
      rw [List.cons_append, List.all_cons, Bool.and_eq_true] at h2
      exact hh h2.1

theorem indentCandStep_var (n : Nat) (body : Str) (hn : 1 ≤ n) (hb : body ≠ [])
    (hh : ¬ Py.isSpace (body.headD ' ') = true) :
    indentCandStep (List.replicate n ' ' ++ body ++ ['\n']) =
      some (List.replicate n ' ') := by
  cases body with
  | nil => exact absurd rfl hb
  | cons c cs =>
    simp only [List.headD_cons] at hh
    have hcs : ¬ (c = ' ') := fun h => hh (by rw [h]; decide)
    have hTW : (List.replicate n ' ' ++ (c :: cs) ++ ['\n']).takeWhile (· = ' ') =
        List.replicate n ' ' := by
      rw [List.append_assoc, takeWhile_all_append _ _ _ (by
        intro x hx
        simp [List.eq_of_mem_replicate hx])]
      simp [List.takeWhile_cons, hcs]
    unfold indentCandStep
    rw [hTW, if_pos]
    refine ⟨?_, ?_⟩
    · intro hnil
      have := congrArg List.length hnil
      simp at this
      omega
    · simp only [List.length_replicate, List.append_assoc, List.length_append,
        List.length_cons]
      omega

theorem leadingRunStep_var (n : Nat) (body : Str) (hb : body ≠ [])
    (hh : ¬ Py.isSpace (body.headD ' ') = true)
    (hnb : ∀ c ∈ body, ¬ Py.isLineBreak c) :
    Py.leadingRunStep (List.replicate n ' ' ++ body ++ ['\n']) =
      some (List.replicate n ' ') := by
  unfold Py.leadingRunStep
  rw [tidy_run (List.replicate n ' ') body (rep_space_all n) hb hh]
  rw [List.append_assoc, List.drop_left]
  cases body with
  | nil => exact absurd rfl hb
  | cons c cs =>
    have hcn : ¬ c = '\n' := by
      intro hceq
      exact hnb c (List.mem_cons_self _ _) (by rw [hceq]; decide)
    simp [hcn]

theorem blankWsLines_var (code : Str) (hv : VarCode code) :
    Py.blankWsLines code = code := by
  unfold Py.blankWsLines
  have hmap : ∀ l ∈ Py.nlLines code, Py.blankLineStep l = l := by
    intro l hl
    rcases hv l hl with rfl | ⟨n, _, body, rfl, hb, hh, _⟩
    · exact blankLineStep_nl
    · exact blankLineStep_tidy (List.replicate n ' ') body hb hh
  calc ((Py.nlLines code).map Py.blankLineStep).flatten
      = ((Py.nlLines code).map id).flatten := by
        exact congrArg List.flatten (List.map_congr_left hmap)
    _ = code := by rw [List.map_id, Py.nlLines_flatten]

end BlackenDocs

namespace BlackenDocs

theorem commonPre_nil_left (x : Str) : Py.commonPre [] x = [] := by
  cases x <;> rfl

theorem commonPre_rep (a b : Nat) :
    Py.commonPre (List.replicate a ' ') (List.replicate b ' ') =
      List.replicate (min a b) ' ' := by
  induction a generalizing b with
  | zero =>
    rw [List.replicate_zero, commonPre_nil_left, Nat.zero_min, List.replicate_zero]
  | succ a ih =>
    cases b with
    | zero =>
      rw [List.replicate_zero, Nat.min_zero, List.replicate_zero]
      rfl
    | succ b =>
      rw [List.replicate_succ, List.replicate_succ]
      show (if (' ' : Char) = ' ' then
        ' ' :: Py.commonPre (List.replicate a ' ') (List.replicate b ' ') else []) = _
      rw [if_pos rfl, ih, Nat.succ_min_succ, List.replicate_succ]

theorem lexLt_rep (a b : Nat) :
    Py.lexLt (List.replicate a ' ') (List.replicate b ' ') = decide (a < b) := by
  induction a generalizing b with
  | zero =>
    cases b with
    | zero => rfl
    | succ b =>
      rw [List.replicate_zero, List.replicate_succ]
      show true = decide (0 < b + 1)
      simp
  | succ a ih =>
    cases b with
    | zero =>
      rw [List.replicate_succ, List.replicate_zero]
      show false = decide (a + 1 < 0)
      simp
    | succ b =>
      rw [List.replicate_succ, List.replicate_succ]
      show (if (' ' : Char) = ' ' then
        Py.lexLt (List.replicate a ' ') (List.replicate b ' ')
        else decide (' ' < ' ')) = _
      rw [if_pos rfl, ih]
      simp only [decide_eq_decide]
      omega

theorem foldl_commonPre_rep (ns : List Nat) (a : Nat) :
    (ns.map (fun m => List.replicate m ' ')).foldl Py.commonPre (List.replicate a ' ') =
      List.replicate (ns.foldl min a) ' ' := by
  induction ns generalizing a with
  | nil => rfl
  | cons n t ih =>
    simp only [List.map_cons, List.foldl_cons, commonPre_rep]
    exact ih (min a n)

theorem foldl_lexMin_rep (ns : List Nat) (a : Nat) :
    (ns.map (fun m => List.replicate m ' ')).foldl
        (fun m y => if Py.lexLt y m then y else m) (List.replicate a ' ') =
      List.replicate (ns.foldl min a) ' ' := by
  induction ns generalizing a with
  | nil => rfl
  | cons n t ih =>
    simp only [List.map_cons, List.foldl_cons]
    have hstep : (if Py.lexLt (List.replicate n ' ') (List.replicate a ' ')
        then List.replicate n ' ' else List.replicate a ' ') =
        List.replicate (min a n) ' ' := by
      rw [lexLt_rep]
      by_cases h : n < a
      · rw [if_pos (by simpa using h)]
        congr 1
        omega
      · rw [if_neg (by simpa using h)]
        congr 1
        omega
    rw [hstep]
    exact ih (min a n)

theorem var_lists (code : Str) (hv : VarCode code) :
    indentCandidates code =
      ((Py.nlLines code).filterMap specIndentLen).map (fun m => List.replicate m ' ') ∧
    Py.leadingWsRuns code =
      ((Py.nlLines code).filterMap specIndentLen).map (fun m => List.replicate m ' ') := by
  constructor
  · unfold indentCandidates
    rw [List.map_filterMap]
    refine List.filterMap_congr ?_
    intro l hl
    rcases hv l hl with rfl | ⟨n, hn, body, rfl, hb, hh, _⟩
    · decide
    · rw [indentCandStep_var n body hn hb hh, specIndentLen_var n body hb hh]
      rfl
  · unfold Py.leadingWsRuns
    rw [List.map_filterMap]
    refine List.filterMap_congr ?_
    intro l hl
    rcases hv l hl with rfl | ⟨n, _, body, rfl, hb, hh, hnb⟩
    · decide
    · rw [leadingRunStep_var n body hb hh hnb, specIndentLen_var n body hb hh]
      rfl

end BlackenDocs

namespace BlackenDocs

theorem dropWhile_head_false (p : Char → Bool) (l : Str) (c : Char) (cs : Str)
    (h : l.dropWhile p = c :: cs) : p c = false := by
  induction l with
  | nil => cases h
  | cons a as ih =>
    rw [List.dropWhile_cons] at h
    by_cases hp : p a = true
    · rw [if_pos hp] at h
      exact ih h
    · rw [if_neg hp] at h
      injection h with h1 _
      subst h1
      simpa using hp

/-- `TRAILING_NL_RE = re.compile(r"\n+\Z")` captures the maximal run of
newline characters at the very end of the text: what precedes it does not
end in a newline, and the run itself is all newlines. -/
theorem trailingNl_run (code : Str) :
    ∃ p : Str, code = p ++ trailingNl code ∧ p.getLast? ≠ some '\n' ∧
      ∀ c ∈ trailingNl code, c = '\n' := by
  refine ⟨(code.reverse.dropWhile (· = '\n')).reverse, ?_, ?_, ?_⟩
  · calc code = code.reverse.reverse := (List.reverse_reverse code).symm
      _ = (code.reverse.takeWhile (· = '\n') ++
            code.reverse.dropWhile (· = '\n')).reverse := by
          rw [List.takeWhile_append_dropWhile]
      _ = (code.reverse.dropWhile (· = '\n')).reverse ++
            (code.reverse.takeWhile (· = '\n')).reverse := by
          rw [List.reverse_append]
      _ = (code.reverse.dropWhile (· = '\n')).reverse ++ trailingNl code := rfl
  · rw [List.getLast?_reverse]
    cases hd : code.reverse.dropWhile (· = '\n') with
    | nil => simp
    | cons c cs =>
      have hc := dropWhile_head_false _ _ _ _ hd
      simp only [List.head?_cons, ne_eq, Option.some.injEq]
      intro hceq
      rw [hceq] at hc
      simp at hc
  · intro c hc
    unfold trailingNl at hc
    rw [List.mem_reverse] at hc
    have := List.mem_takeWhile_imp hc
    simpa using this

end BlackenDocs

namespace BlackenDocs

/-- Stub formatter for the C2 runs: reformats `x=1` (with its trailing
newline runs) to `x = 1\n` and leaves anything else unchanged. -/
def fmtC2 (s : Str) : Option Str :=
  if s = str "x=1\n\n\n" then some (str "x = 1\n")
  else if s = str "x=1\n\n" then some (str "x = 1\n")
  else some s

/-- An RST directive-block whose code region holds a 4-space-indented
content line followed by a line of two spaces (whitespace-only, so it
carries no signal for the claim's min, but `INDENT_RE` still collects its
2-space run because `[^ ]` matches the newline after it). -/
def docC2x : Str := str ".. code-block:: python\n\n    x=1\n  \n"

/-- An RST directive-block whose code is indented 3 spaces with a trailing
run of exactly 2 blank lines. -/
def docC2 : Str := str ".. code-block:: python\n\n   x=1\n\n\n"

/-- C2, counterexample.  The claim says the reindent amount is the minimum
leading-whitespace length over the *non-blank* code lines (here 4).  But
`_rst_match` takes `min(INDENT_RE.findall(code))`, and `INDENT_RE`'s
candidates include the 2-space run of the whitespace-only line `"  \n"`
(its lookahead `[^ ]` matches the newline), so the block is reindented by
2 spaces, not 4: the engine returns `".. code-block:: python\n\n  x = 1\n"`
where the claim predicts `".. code-block:: python\n\n    x = 1\n"`. -/
theorem C2_counterexample :
    format_str fmtC2 docC2x =
      .ok (str ".. code-block:: python\n\n  x = 1\n", []) ∧
    str ".. code-block:: python\n\n  x = 1\n" ≠
      str ".. code-block:: python\n\n    x = 1\n" :=
  ⟨rfl, by decide⟩

/-- C2, amended.  (1) When every code line is a bare newline or a
space-indented line whose body starts with a non-whitespace character — in
particular, when there are no whitespace-only lines other than `"\n"` —
the engine's reindent amount `min(INDENT_RE.findall(code))` is exactly the
specification's minimum leading-whitespace length `n₀` over the non-blank
lines (as a run of `n₀` spaces), and `textwrap.dedent` strips exactly that
margin before the formatter runs.  (2) The captured trailing run is the
maximal suffix of newline characters of the code region and is re-appended
verbatim.  (3) In particular, a directive-block whose code is indented 3
spaces with exactly 2 trailing blank lines is returned reformatted with
3-space indentation and exactly 2 trailing blank lines. -/
theorem C2_amended :
    (∀ code : Str, VarCode code → ∀ n₀ : Nat, specMinIndent code = some n₀ →
        Py.pyMin (indentCandidates code) = some (List.replicate n₀ ' ') ∧
        Py.dedentMargin code = List.replicate n₀ ' ') ∧
    (∀ code : Str, ∃ p : Str, code = p ++ trailingNl code ∧
        p.getLast? ≠ some '\n' ∧ ∀ c ∈ trailingNl code, c = '\n') ∧
    format_str fmtC2 docC2 =
      .ok (str ".. code-block:: python\n\n   x = 1\n\n\n", []) := by
  refine ⟨?_, trailingNl_run, rfl⟩
  intro code hv n₀ hmin
  obtain ⟨hcand, hruns⟩ := var_lists code hv
  unfold specMinIndent at hmin
  cases hns : (Py.nlLines code).filterMap specIndentLen with
  | nil =>
    rw [hns] at hmin
    cases hmin
  | cons n rest =>
    rw [hns] at hmin
    injection hmin with hmin
    constructor
    · rw [hcand, hns, List.map_cons]
      show some ((rest.map (fun m => List.replicate m ' ')).foldl
          (fun m y => if Py.lexLt y m then y else m) (List.replicate n ' ')) =
        some (List.replicate n₀ ' ')
      rw [foldl_lexMin_rep, hmin]
    · unfold Py.dedentMargin
      rw [blankWsLines_var code hv, hruns, hns, List.map_cons]
      show (rest.map (fun m => List.replicate m ' ')).foldl Py.commonPre
          (List.replicate n ' ') = _
      rw [foldl_commonPre_rep, hmin]

/-- Closed instance of the amended C2 on the one-line code region
`"   x=1\n"`: its spec-side minimum indent is 3, and the engine's
`min(INDENT_RE.findall(...))` and dedent margin are both three spaces. -/
theorem C2_amended_witness :
    Py.pyMin (indentCandidates (str "   x=1\n")) = some (List.replicate 3 ' ') ∧
    Py.dedentMargin (str "   x=1\n") = List.replicate 3 ' ' := by
  refine C2_amended.1 (str "   x=1\n") ?_ 3 (by rfl)
  intro l hl
  rw [show Py.nlLines (str "   x=1\n") = [str "   x=1\n"] from rfl] at hl
  rw [List.mem_singleton] at hl
  subst hl
  right
  exact ⟨3, by decide, str "x=1", by decide, by decide, by decide, by decide⟩

end BlackenDocs

namespace Formatter

/-! ### C7: idempotence of the inline-literal pass -/

theorem strTT : str "``" = ['`', '`'] := rfl

theorem tailOk_cases (r : Str) (h : tailOk r = true) : r = [] ∨ r = ['\n'] := by
  unfold tailOk at h
  rw [Bool.or_eq_true, decide_eq_true_eq, decide_eq_true_eq] at h
  exact h

/-- What a successful general match yields: the group is a prefix of the
word, and past the group and the one `[^()]` character only `$` material
(nothing, or one newline) remains. -/
theorem altFirst_spec (w p : Str) (h : altFirst w = some p) :
    p <+: w ∧ tailOk (w.drop (p.length + 1)) = true := by
  simp only [altFirst] at h
  split at h
  · rename_i q hq
    injection h with h
    subst h
    obtain ⟨k, hk, hfk⟩ := List.exists_of_findSome?_eq_some hq
    split at hfk
    · rename_i c hc
      split at hfk
      · rename_i hcond
        injection hfk with hfk
        subst hfk
        have hlt : k + 1 < w.length := by
          have := hc
          rw [List.getElem?_eq_some_iff] at this
          exact this.1
        have hlen : (w.take (k + 1)).length = k + 1 := by
          rw [List.length_take]
          omega
        rw [Bool.and_eq_true, Bool.and_eq_true] at hcond
        refine ⟨List.take_prefix _ _, ?_⟩
        rw [hlen]
        exact hcond.2
      · cases hfk
    · cases hfk
  · rename_i hq
    obtain ⟨n, hn, hfn⟩ := List.exists_of_findSome?_eq_some h
    split at hfn
    · rename_i hpre
      split at hfn
      · rename_i c hc
        split at hfn
        · rename_i hcond
          injection hfn with hfn
          subst hfn
          rw [Bool.and_eq_true, Bool.and_eq_true] at hcond
          exact ⟨List.isPrefixOf_iff_prefix.mp hpre, hcond.2⟩
        · cases hfn
      · cases hfn
    · cases hfn

theorem inlineNames_shape : ∀ n ∈ inlineNames, n.head? ≠ some '`' ∧ n ≠ [] := by decide

theorem altFirst_backtick (t : Str) : altFirst ('`' :: t) = none := by
  have hdig : ('`' :: t).takeWhile (·.isDigit) = [] := by
    simp [List.takeWhile_cons]
  simp only [altFirst, hdig, List.length_nil, List.range_zero, List.reverse_nil,
    List.findSome?_nil]
  rw [List.findSome?_eq_none_iff]
  intro n hn
  obtain ⟨hh, hne⟩ := inlineNames_shape n hn
  cases n with
  | nil => exact absurd rfl hne
  | cons c cstail =>
    simp only [List.head?_cons, ne_eq, Option.some.injEq] at hh
    have hpre : ¬ (c :: cstail).isPrefixOf ('`' :: t) = true := by
      rw [List.isPrefixOf_iff_prefix, List.cons_prefix_cons]
      rintro ⟨rfl, -⟩
      exact hh rfl
    rw [if_neg hpre]

end Formatter

namespace Formatter

theorem notWrapped_tt (m rest : Str) (hr : rest = [] ∨ rest = ['\n']) :
    isNotFullyWrapped ('`' :: '`' :: (m ++ '`' :: '`' :: rest)) = false := by
  unfold isNotFullyWrapped
  rcases hr with rfl | rfl
  · have hpre : (str "``").isPrefixOf ('`' :: '`' :: (m ++ '`' :: '`' :: [])) = true := by
      rw [List.isPrefixOf_iff_prefix, strTT]
      exact ⟨m ++ '`' :: '`' :: [], rfl⟩
    have hsuf : (str "``").isSuffixOf ('`' :: '`' :: (m ++ '`' :: '`' :: [])) = true := by
      rw [List.isSuffixOf_iff_suffix, strTT]
      exact ⟨'`' :: '`' :: m, by simp⟩
    rw [hpre, hsuf]
    simp
  · have hsuf : (str "`").isSuffixOf ('`' :: '`' :: (m ++ '`' :: '`' :: ['\n'])) = false := by
      rw [Bool.eq_false_iff, ne_eq, List.isSuffixOf_iff_suffix]
      rintro ⟨t, ht⟩
      have hlast := congrArg List.getLast? ht
      rw [show str "`" = ['`'] from rfl] at hlast
      rw [List.getLast?_concat] at hlast
      rw [show '`' :: '`' :: (m ++ '`' :: '`' :: ['\n']) =
        ('`' :: '`' :: (m ++ ['`', '`'])) ++ ['\n'] from by simp] at hlast
      rw [List.getLast?_concat] at hlast
      cases hlast
    rw [hsuf]
    simp

theorem notWrapped_stripped (v : Str) (hv : v = [] ∨ ¬ v.head? = some '`') :
    isNotFullyWrapped v = false := by
  rcases hv with rfl | hh
  · decide
  · cases v with
    | nil => decide
    | cons c cstail =>
      simp only [List.head?_cons, Option.some.injEq] at hh
      have hpre : (str "`").isPrefixOf (c :: cstail) = false := by
        rw [Bool.eq_false_iff, ne_eq, List.isPrefixOf_iff_prefix,
          show str "`" = ['`'] from rfl, List.cons_prefix_cons]
        rintro ⟨rfl, -⟩
        exact hh rfl
      unfold isNotFullyWrapped
      rw [hpre]
      simp

theorem stripChars_prefix_dw (cset : List Char) (w : Str) :
    Py.stripChars cset w <+: w.dropWhile (cset.contains ·) := by
  unfold Py.stripChars Py.dropTrail
  have h2 : ((w.dropWhile (cset.contains ·)).reverse.dropWhile (cset.contains ·)).reverse <+:
      ((w.dropWhile (cset.contains ·)).reverse).reverse :=
    List.reverse_prefix.mpr (List.dropWhile_suffix _)
  rw [List.reverse_reverse] at h2
  exact h2

theorem stripChars_within (cset : List Char) (w : Str) : Py.stripChars cset w <:+: w :=
  (stripChars_prefix_dw cset w).isInfix.trans (List.dropWhile_suffix _).isInfix

theorem stripChars_head_not (cset : List Char) (w : Str) :
    Py.stripChars cset w = [] ∨
      ∀ c, (Py.stripChars cset w).head? = some c → cset.contains c = false := by
  cases hs : Py.stripChars cset w with
  | nil => exact Or.inl rfl
  | cons c0 ctail =>
    right
    intro c hc
    rw [List.head?_cons, Option.some.injEq] at hc
    subst hc
    have hsub := stripChars_prefix_dw cset w
    rw [hs] at hsub
    obtain ⟨t, ht⟩ := hsub
    cases hxcase : w.dropWhile (cset.contains ·) with
    | nil =>
      rw [hxcase] at ht
      cases ht
    | cons d ds =>
      rw [hxcase] at ht
      rw [List.cons_append] at ht
      injection ht with h1 _
      subst h1
      exact BlackenDocs.dropWhile_head_false (fun ch => cset.contains ch) w c0 ds hxcase

end Formatter

namespace Formatter

theorem subGeneral_chars (sv : Str) : ∀ c ∈ subGeneral sv, c ∈ sv ∨ c = '`' := by
  cases ha : altFirst sv with
  | none =>
    rw [subGeneral, ha]
    intro c hc
    exact Or.inl hc
  | some p =>
    rw [subGeneral, ha]
    intro c hc
    simp only [List.append_assoc, List.mem_append] at hc
    rcases hc with hc | hc | hc | hc
    · right
      rw [strTT] at hc
      simpa using hc
    · exact Or.inl ((altFirst_spec sv p ha).1.subset hc)
    · right
      rw [strTT] at hc
      simpa using hc
    · exact Or.inl (List.drop_subset _ _ hc)

theorem fixWord_chars (w : Str) : ∀ c ∈ fixWord w, c ∈ w ∨ c = '`' := by
  intro c hc
  simp only [fixWord] at hc
  by_cases h1 : ((altFirst w).isSome && decide (¬ strictMatch w = true)) = true
  · rw [if_pos h1] at hc
    have hvchars : ∀ d ∈ subGeneral (Py.stripChars ['`'] w), d ∈ w ∨ d = '`' := by
      intro d hd
      rcases subGeneral_chars _ d hd with hin | rfl
      · exact Or.inl ((stripChars_within ['`'] w).subset hin)
      · exact Or.inr rfl
    by_cases h2 : isNotFullyWrapped (subGeneral (Py.stripChars ['`'] w)) = true
    · rw [if_pos h2] at hc
      simp only [List.append_assoc, List.mem_append] at hc
      rcases hc with hc | hc | hc
      · right
        rw [strTT] at hc
        simpa using hc
      · exact hvchars c ((stripChars_within ['`'] _).subset hc)
      · right
        rw [strTT] at hc
        simpa using hc
    · rw [if_neg h2] at hc
      exact hvchars c hc
  · rw [if_neg h1] at hc
    by_cases h2 : isNotFullyWrapped w = true
    · rw [if_pos h2] at hc
      simp only [List.append_assoc, List.mem_append] at hc
      rcases hc with hc | hc | hc
      · right
        rw [strTT] at hc
        simpa using hc
      · exact Or.inl ((stripChars_within ['`'] w).subset hc)
      · right
        rw [strTT] at hc
        simpa using hc
    · rw [if_neg h2] at hc
      exact Or.inl hc

end Formatter

namespace Formatter

/-- A word of the shape `` `` ``…`` `` (double backticks around anything,
optionally a final newline) passes through `fixWord` unchanged: the
general pattern cannot match past the leading backtick and the word is
already fully wrapped. -/
theorem fixWord_doubletick (m rest : Str) (hr : rest = [] ∨ rest = ['\n']) :
    fixWord ('`' :: '`' :: (m ++ '`' :: '`' :: rest)) =
      '`' :: '`' :: (m ++ '`' :: '`' :: rest) := by
  have h1 : altFirst ('`' :: '`' :: (m ++ '`' :: '`' :: rest)) = none := altFirst_backtick _
  simp only [fixWord, h1, Option.isSome_none, Bool.false_and, Bool.false_eq_true,
    if_false, notWrapped_tt m rest hr]

/-- A word whose ends carry no backtick (e.g. the result of `strip("``")`)
and on which the general pattern fails passes through `fixWord`
unchanged. -/
theorem fixWord_bare (v : Str) (ha : altFirst v = none)
    (hh : v = [] ∨ ¬ v.head? = some '`') : fixWord v = v := by
  simp only [fixWord, ha, Option.isSome_none, Bool.false_and, Bool.false_eq_true,
    if_false, notWrapped_stripped v hh]

theorem stripTick_or (w : Str) :
    Py.stripChars ['`'] w = [] ∨ ¬ (Py.stripChars ['`'] w).head? = some '`' := by
  rcases stripChars_head_not ['`'] w with h | h
  · exact Or.inl h
  · right
    intro hc
    have := h '`' hc
    simp at this

/-- The per-word rewrite of `fix_inline` is idempotent. -/
theorem fixWord_idem (w : Str) : fixWord (fixWord w) = fixWord w := by
  by_cases h1 : ((altFirst w).isSome && decide (¬ strictMatch w = true)) = true
  · cases ha : altFirst (Py.stripChars ['`'] w) with
    | some p =>
      obtain ⟨-, htail⟩ := altFirst_spec _ _ ha
      have hr := tailOk_cases _ htail
      have hshape : subGeneral (Py.stripChars ['`'] w) =
          '`' :: '`' :: (p ++ '`' :: '`' ::
            ((Py.stripChars ['`'] w).drop (p.length + 1))) := by
        rw [subGeneral, ha, strTT]
        simp
      have hfw : fixWord w = '`' :: '`' :: (p ++ '`' :: '`' ::
          ((Py.stripChars ['`'] w).drop (p.length + 1))) := by
        simp only [fixWord, if_pos h1, hshape, notWrapped_tt p _ hr, Bool.false_eq_true,
          if_false]
      rw [hfw]
      exact fixWord_doubletick p _ hr
    | none =>
      have hshape : subGeneral (Py.stripChars ['`'] w) = Py.stripChars ['`'] w := by
        rw [subGeneral, ha]
      have hfw : fixWord w = Py.stripChars ['`'] w := by
        simp only [fixWord, if_pos h1, hshape,
          notWrapped_stripped _ (stripTick_or w), Bool.false_eq_true, if_false]
      rw [hfw]
      exact fixWord_bare _ ha (stripTick_or w)
  · by_cases h2 : isNotFullyWrapped w = true
    · have hfw : fixWord w = '`' :: '`' :: (Py.stripChars ['`'] w ++ '`' :: '`' :: []) := by
        simp only [fixWord, if_neg h1, if_pos h2, strTT]
        simp
      rw [hfw]
      exact fixWord_doubletick _ [] (Or.inl rfl)
    · have hfw : fixWord w = w := by
        simp only [fixWord, if_neg h1, if_neg h2]
      rw [hfw, hfw]

end Formatter

namespace Formatter

theorem splitSpace_no_space (s : Str) : ∀ part ∈ Py.splitSpace s, ' ' ∉ part := by
  induction s with
  | nil =>
    intro part hp
    simp only [Py.splitSpace, List.mem_singleton] at hp
    subst hp
    simp
  | cons c cstail ih =>
    intro part hp
    simp only [Py.splitSpace] at hp
    by_cases hcs : c = ' '
    · rw [if_pos hcs] at hp
      rcases List.mem_cons.mp hp with rfl | hp
      · simp
      · exact ih part hp
    · rw [if_neg hcs] at hp
      cases hsp : Py.splitSpace cstail with
      | nil => exact absurd hsp (Py.splitSpace_ne_nil cstail)
      | cons l ls =>
        rw [hsp] at hp
        rcases List.mem_cons.mp hp with rfl | hp
        · intro hmem
          rcases List.mem_cons.mp hmem with heq | hmem
          · exact hcs heq.symm
          · exact ih l (hsp ▸ List.mem_cons_self _ _) hmem
        · exact ih part (hsp ▸ List.mem_cons_of_mem _ hp)

theorem splitSpace_subset (s : Str) : ∀ part ∈ Py.splitSpace s, ∀ c ∈ part, c ∈ s := by
  induction s with
  | nil =>
    intro part hp
    simp only [Py.splitSpace, List.mem_singleton] at hp
    subst hp
    simp
  | cons c cstail ih =>
    intro part hp d hd
    simp only [Py.splitSpace] at hp
    by_cases hcs : c = ' '
    · rw [if_pos hcs] at hp
      rcases List.mem_cons.mp hp with rfl | hp
      · cases hd
      · exact List.mem_cons_of_mem _ (ih part hp d hd)
    · rw [if_neg hcs] at hp
      cases hsp : Py.splitSpace cstail with
      | nil => exact absurd hsp (Py.splitSpace_ne_nil cstail)
      | cons l ls =>
        rw [hsp] at hp
        rcases List.mem_cons.mp hp with rfl | hp
        · rcases List.mem_cons.mp hd with rfl | hd
          · exact List.mem_cons_self _ _
          · exact List.mem_cons_of_mem _
              (ih l (hsp ▸ List.mem_cons_self _ _) d hd)
        · exact List.mem_cons_of_mem _
            (ih part (hsp ▸ List.mem_cons_of_mem _ hp) d hd)

theorem splitSpace_free (p : Str) (h : ' ' ∉ p) : Py.splitSpace p = [p] := by
  induction p with
  | nil => rfl
  | cons c cstail ih =>
    have hc : ¬ c = ' ' := fun hceq => h (hceq ▸ List.mem_cons_self _ _)
    have hcs : ' ' ∉ cstail := fun hin => h (List.mem_cons_of_mem _ hin)
    simp only [Py.splitSpace, if_neg hc, ih hcs]

theorem splitSpace_append (p rest : Str) (h : ' ' ∉ p) :
    Py.splitSpace (p ++ ' ' :: rest) = p :: Py.splitSpace rest := by
  induction p with
  | nil =>
    simp [Py.splitSpace]
  | cons c cstail ih =>
    have hc : ¬ c = ' ' := fun hceq => h (hceq ▸ List.mem_cons_self _ _)
    have hcs : ' ' ∉ cstail := fun hin => h (List.mem_cons_of_mem _ hin)
    rw [List.cons_append]
    simp only [Py.splitSpace, if_neg hc, ih hcs]

theorem joinSep_single (sep p : Str) : Py.joinSep sep [p] = p := by
  simp [Py.joinSep, List.intercalate]

theorem joinSep_cons2 (sep : Str) (a b : Str) (t : List Str) :
    Py.joinSep sep (a :: b :: t) = a ++ sep ++ Py.joinSep sep (b :: t) := by
  simp [Py.joinSep, List.intercalate, List.intersperse]

theorem splitSpace_joinSep (ps : List Str) (hsp : ∀ p ∈ ps, ' ' ∉ p) (hne : ps ≠ []) :
    Py.splitSpace (Py.joinSep [' '] ps) = ps := by
  induction ps with
  | nil => exact absurd rfl hne
  | cons a t ih =>
    cases t with
    | nil =>
      rw [joinSep_single]
      exact splitSpace_free a (hsp a (List.mem_cons_self _ _))
    | cons b t2 =>
      rw [joinSep_cons2]
      rw [List.append_assoc]
      rw [show ([' '] : Str) ++ Py.joinSep [' '] (b :: t2) =
        ' ' :: Py.joinSep [' '] (b :: t2) from rfl]
      rw [splitSpace_append a _ (hsp a (List.mem_cons_self _ _))]
      rw [ih (fun p hp => hsp p (List.mem_cons_of_mem _ hp)) (by simp)]

theorem joinSep_mem (sep : Str) (ps : List Str) :
    ∀ c ∈ Py.joinSep sep ps, c ∈ sep ∨ ∃ p ∈ ps, c ∈ p := by
  induction ps with
  | nil =>
    intro c hc
    simp [Py.joinSep, List.intercalate] at hc
  | cons a t ih =>
    cases t with
    | nil =>
      intro c hc
      rw [joinSep_single] at hc
      exact Or.inr ⟨a, List.mem_cons_self _ _, hc⟩
    | cons b t2 =>
      intro c hc
      rw [joinSep_cons2] at hc
      simp only [List.append_assoc, List.mem_append] at hc
      rcases hc with hc | hc | hc
      · exact Or.inr ⟨a, List.mem_cons_self _ _, hc⟩
      · exact Or.inl hc
      · rcases ih c hc with hs | ⟨p, hp, hcp⟩
        · exact Or.inl hs
        · exact Or.inr ⟨p, List.mem_cons_of_mem _ hp, hcp⟩

end Formatter

namespace Formatter

theorem splitlinesKeep_free (s : Str) (hne : s ≠ [])
    (h : ∀ c ∈ s, ¬ Py.isLineBreak c = true) : Py.splitlinesKeep s = [s] := by
  induction s with
  | nil => exact absurd rfl hne
  | cons c cstail ih =>
    have hc : ¬ Py.isLineBreak c = true := h c (List.mem_cons_self _ _)
    have hcd : ¬ c = '\x0d' := by
      intro hceq
      exact hc (by rw [hceq]; decide)
    have hcs : ∀ x ∈ cstail, ¬ Py.isLineBreak x = true :=
      fun x hx => h x (List.mem_cons_of_mem _ hx)
    rw [Py.splitlinesKeep]
    · rw [if_neg hc]
      cases hcstail : cstail with
      | nil => rfl
      | cons d ds =>
        rw [← hcstail, ih (by rw [hcstail]; simp) hcs]
    · intro cs2 hcr _
      exact absurd hcr hcd

theorem dropLineBreak_free (t : Str) (h : ∀ c ∈ t, ¬ Py.isLineBreak c = true) :
    Py.dropLineBreak t = t := by
  unfold Py.dropLineBreak
  split
  · rename_i rest heq
    have : '\n' ∈ t := by
      have := congrArg List.reverse heq
      rw [List.reverse_reverse] at this
      rw [this]
      simp
    exact absurd (by decide : Py.isLineBreak '\n' = true) (h '\n' this)
  · rename_i c rest hcond heq
    have hct : c ∈ t := by
      have := congrArg List.reverse heq
      rw [List.reverse_reverse] at this
      rw [this]
      simp
    rw [if_neg (h c hct)]
  · rfl

theorem splitlines_free (t : Str) (hne : t ≠ [])
    (h : ∀ c ∈ t, ¬ Py.isLineBreak c = true) : Py.splitlines t = [t] := by
  unfold Py.splitlines
  rw [splitlinesKeep_free t hne h, List.map_cons, List.map_nil, dropLineBreak_free t h]

end Formatter

namespace Formatter

/-- C7, counterexample.  The inline-normalization pass is not idempotent.
Module-level `formatter.py`: on `"a\nb"` the kept-ends line `"a\n"`
survives word-splitting with its newline, so the final
`" ".join(...).splitlines()` step leaves the separator space at the start
of the second line, and every further run adds one more space
(`"a\nb" ↦ "a\n b" ↦ "a\n  b"`).  Package `blacken_docs/formatter.py`: on
`"\tint"` the final `textwrap.dedent(f" {text}")` strips the tab, and the
newly exposed word `int` is wrapped only by the following run
(`"\tint" ↦ "int" ↦ "``int``"`). -/
theorem C7_counterexample :
    Formatter.fix_inline (Formatter.fix_inline (str "a\nb")) ≠
      Formatter.fix_inline (str "a\nb") ∧
    PkgFormatter.fix_inline (PkgFormatter.fix_inline (str "\tint")) ≠
      PkgFormatter.fix_inline (str "\tint") := by
  constructor
  · decide
  · decide

/-- C7, amended.  The module-level `fix_inline` is idempotent on every
input free of line-break characters: such an input is a single kept-ends
line, its space-split words are rewritten by the idempotent per-word
transformation (which introduces no spaces or newlines), and the
join/split/join pipeline is then the identity on the rewritten words. -/
theorem C7_amended (s : Str) (hf : ∀ c ∈ s, ¬ Py.isLineBreak c = true) :
    Formatter.fix_inline (Formatter.fix_inline s) = Formatter.fix_inline s := by
  by_cases hne : s = []
  · subst hne
    rfl
  · have hsplitK : Py.splitlinesKeep s = [s] := splitlinesKeep_free s hne hf
    have h_eq1 : fix_inline s =
        Py.joinSep ['\n'] (Py.splitlines (Py.joinSep [' ']
          ((Py.splitSpace s).map fixWord))) := by
      simp only [fix_inline, hsplitK, List.flatMap_cons, List.flatMap_nil,
        List.append_nil]
    have hws_ns : ∀ p ∈ (Py.splitSpace s).map fixWord, ' ' ∉ p := by
      intro p hp hmem
      rw [List.mem_map] at hp
      obtain ⟨q, hq, rfl⟩ := hp
      rcases fixWord_chars q ' ' hmem with hin | habs
      · exact splitSpace_no_space s q hq hin
      · cases habs
    have hws_nb : ∀ p ∈ (Py.splitSpace s).map fixWord, ∀ c ∈ p,
        ¬ Py.isLineBreak c = true := by
      intro p hp c hc
      rw [List.mem_map] at hp
      obtain ⟨q, hq, rfl⟩ := hp
      rcases fixWord_chars q c hc with hin | rfl
      · exact hf c (splitSpace_subset s q hq c hin)
      · decide
    have hws_ne : (Py.splitSpace s).map fixWord ≠ [] := by
      intro hcon
      rw [List.map_eq_nil_iff] at hcon
      exact Py.splitSpace_ne_nil s hcon
    have ht_nb : ∀ c ∈ Py.joinSep [' '] ((Py.splitSpace s).map fixWord),
        ¬ Py.isLineBreak c = true := by
      intro c hc
      rcases joinSep_mem [' '] _ c hc with hs | ⟨p, hp, hcp⟩
      · rw [List.mem_singleton] at hs
        subst hs
        decide
      · exact hws_nb p hp c hcp
    by_cases htn : Py.joinSep [' '] ((Py.splitSpace s).map fixWord) = []
    · have h0 : fix_inline s = [] := by
        rw [h_eq1, htn]
        rfl
      rw [h0]
      rfl
    · have h1 : fix_inline s = Py.joinSep [' '] ((Py.splitSpace s).map fixWord) := by
        rw [h_eq1, splitlines_free _ htn ht_nb, joinSep_single]
      rw [h1]
      have hsplitK2 : Py.splitlinesKeep
          (Py.joinSep [' '] ((Py.splitSpace s).map fixWord)) =
          [Py.joinSep [' '] ((Py.splitSpace s).map fixWord)] :=
        splitlinesKeep_free _ htn ht_nb
      have hrec : Py.splitSpace (Py.joinSep [' '] ((Py.splitSpace s).map fixWord)) =
          (Py.splitSpace s).map fixWord :=
        splitSpace_joinSep _ hws_ns hws_ne
      have hmapid : ((Py.splitSpace s).map fixWord).map fixWord =
          (Py.splitSpace s).map fixWord := by
        rw [List.map_map]
        refine List.map_congr_left ?_
        intro q _
        show fixWord (fixWord q) = fixWord q
        exact fixWord_idem q
      show fix_inline _ = _
      simp only [fix_inline, hsplitK2, List.flatMap_cons, List.flatMap_nil,
        List.append_nil]
      rw [hrec, hmapid, splitlines_free _ htn ht_nb, joinSep_single]

/-- Closed instance of the amended C7: the line-break-free input
`"see int. here"` reaches a fixed point after one pass. -/
theorem C7_amended_witness :
    Formatter.fix_inline (Formatter.fix_inline (str "see int. here")) =
      Formatter.fix_inline (str "see int. here") :=
  C7_amended (str "see int. here") (by decide)

end Formatter

namespace Formatter

/-! ### C8: the punctuation-migration rule of `wrap_text` -/

/-- C8, counterexample.  The claim words the rule on the current line and
the *following* line; the code keys every decision on the *previous* line
(the carried `last_line`, initialised to `" "`).  On `"abc\ndef"` the claim
predicts a period appended to `abc` and `def` capitalized, but the loop
compares each line with its predecessor (`" "`, then `"abc"`, neither
blank nor period-ended) and changes nothing. -/
theorem C8_counterexample :
    Formatter.wrap_text_pre (str "abc\ndef") = str "abc\ndef" ∧
    Py.joinSep ['\n'] (Formatter.migrateClaim (Py.splitlines (str "abc\ndef"))) =
      str "abc.\nDef" ∧
    str "abc\ndef" ≠ str "abc.\nDef" :=
  ⟨rfl, rfl, by decide⟩

/-- C8, amended.  The rule keys on the previous line, not the following
one: (1) with a non-blank predecessor that does not end in a period,
a line passes through unchanged — in particular the first two lines of a
document (the initial `last_line` is `" "`) are never punctuated when the
first does not end in `.`; (2) a non-blank, punctuation-free line whose
*previous* line is blank is capitalized and given a period; (3) when the
previous line ends with a period and the current line does not, the period
moves backwards off the previous emitted line onto the current one. -/
theorem C8_amended :
    (∀ a b : Str, a ≠ [] → ¬ skipLine a = true → ¬ skipLine b = true →
      a.getLast? ≠ some '.' → migrateGo [a, b] [' '] [] = [a, b]) ∧
    (∀ b : Str, ¬ skipLine b = true → b ≠ [] →
      ¬ (∃ c, b.getLast? = some c ∧ PUNCTUATION.contains c) →
      migrateGo [[], b] [' '] [] = [[], capDot b]) ∧
    (∀ a b : Str, a ≠ [] → ¬ skipLine a = true → ¬ skipLine b = true →
      a.getLast? = some '.' → b ≠ [] → b.getLast? ≠ some '.' →
      migrateGo [a, b] [' '] [] = [a.dropLast, b ++ ['.']]) := by
  refine ⟨?_, ?_, ?_⟩
  · intro a b ha hsa hsb had
    simp only [migrateGo]
    rw [if_neg hsa]
    rw [if_neg (by rintro ⟨h, -⟩; exact absurd h (by decide))]
    rw [if_neg (by rintro ⟨h, -⟩; exact absurd h (by decide))]
    rw [if_neg hsb]
    rw [if_neg (by rintro ⟨h, -⟩; exact ha h)]
    rw [if_neg (by rintro ⟨h, -⟩; exact had h)]
    simp
  · intro b hsb hb hpunct
    simp only [migrateGo]
    rw [if_neg (by decide : ¬ skipLine [] = true)]
    rw [if_neg (by rintro ⟨-, h, -⟩; exact h rfl)]
    rw [if_neg (by rintro ⟨h, -⟩; exact absurd h (by decide))]
    rw [if_neg hsb]
    rw [if_pos ⟨trivial, hb, hpunct⟩]
    simp
  · intro a b ha hsa hsb had hb hbd
    simp only [migrateGo]
    rw [if_neg hsa]
    rw [if_neg (by rintro ⟨h, -⟩; exact absurd h (by decide))]
    rw [if_neg (by rintro ⟨h, -⟩; exact absurd h (by decide))]
    rw [if_neg hsb]
    rw [if_neg (by rintro ⟨h, -⟩; exact ha h)]
    rw [if_pos ⟨had, hb, hbd⟩]
    simp

/-- Closed instance of the amended C8, rule (3): on `["x.", "y"]` the
period moves off `x.` onto `y`. -/
theorem C8_amended_witness :
    migrateGo [str "x.", str "y"] [' '] [] =
      [(str "x.").dropLast, str "y" ++ ['.']] :=
  C8_amended.2.2 (str "x.") (str "y") (by decide) (by decide) (by decide)
    (by decide) (by decide) (by decide)

end Formatter

namespace Formatter

/-! ### C9/C10: the in-place `mode.line_length` decrement and its restore -/

theorem cf_error (search : Str → Option RMatch) (black : Str → Int → Option Str)
    (m1 : Mode) (s : Str) (e : Mode)
    (h : code_formatter search black m1 s = .error e) : e = m1 := by
  unfold code_formatter at h
  split at h
  · cases h
  · split at h
    · injection h with h2
      exact h2.symm
    · cases h

theorem bcbLoop_error (search : Str → Option RMatch) (black : Str → Int → Option Str)
    (m1 : Mode) (old : Str) :
    ∀ (fuel : Nat) (nb : Str) (acc : List (Str × Str × Str)) (e : Mode),
      bcbLoop search black m1 old fuel nb acc = .error e → e = m1 := by
  intro fuel
  induction fuel with
  | zero =>
    intro nb acc e h
    cases h
  | succ fuel ih =>
    intro nb acc e h
    unfold bcbLoop at h
    split at h
    · cases h
    · cases hcf : code_formatter search black m1 nb with
      | error e0 =>
        rw [hcf] at h
        injection h with h2
        rw [← h2]
        exact cf_error search black m1 nb e0 hcf
      | ok t =>
        obtain ⟨nb2, c, a⟩ := t
        rw [hcf] at h
        exact ih nb2 ((nb2, c, a) :: acc) e h

theorem bcb_ok_mode (search : Str → Option RMatch) (black : Str → Int → Option Str)
    (s : Str) (m : Mode) (out : Str) (m' : Mode)
    (h : blacken_code_blocks search black s m = .ok (out, m')) : m' = m := by
  unfold blacken_code_blocks at h
  split at h
  · injection h with h2
    exact (congrArg Prod.snd h2).symm
  · simp only at h
    split at h
    · cases h
    · split at h
      · cases h
      · injection h with h2
        have := congrArg Prod.snd h2
        simp only at this
        rw [← this]
        obtain ⟨ll⟩ := m
        simp only [Mode.mk.injEq]
        omega

theorem bcb_error_mode (search : Str → Option RMatch) (black : Str → Int → Option Str)
    (s : Str) (m : Mode) (e : Mode)
    (h : blacken_code_blocks search black s m = .error e) :
    e = ⟨m.line_length - 4⟩ := by
  unfold blacken_code_blocks at h
  split at h
  · cases h
  · simp only at h
    split at h
    · rename_i e0 hcf
      injection h with h2
      rw [← h2]
      exact cf_error search black _ s e0 hcf
    · split at h
      · rename_i acc0 hloop
        injection h with h2
        rw [← h2]
        exact bcbLoop_error search black _ _ _ _ _ _ hloop
      · cases h

end Formatter

namespace PkgFormatter

theorem waf_ok_mode (fill : Str → Int → Except Unit Str) (text : Str)
    (m : Formatter.Mode) (i : Option Int) (out : Str) (m' : Formatter.Mode)
    (h : wrap_and_fix fill text m i = .ok (out, m')) : m' = m := by
  cases i with
  | none =>
    simp only [wrap_and_fix] at h
    split at h
    · cases h
    · injection h with h2
      exact (congrArg Prod.snd h2).symm
  | some j =>
    simp only [wrap_and_fix] at h
    split at h
    · cases h
    · injection h with h2
      have h3 := congrArg Prod.snd h2
      simp only at h3
      rw [← h3]
      obtain ⟨ll⟩ := m
      simp only [Formatter.Mode.mk.injEq]
      omega

theorem waf_error_mode (fill : Str → Int → Except Unit Str) (text : Str)
    (m : Formatter.Mode) (j : Int) (e : Formatter.Mode)
    (h : wrap_and_fix fill text m (some j) = .error e) :
    e = ⟨m.line_length - j⟩ := by
  simp only [wrap_and_fix] at h
  split at h
  · injection h with h2
    exact h2.symm
  · cases h

end PkgFormatter

namespace Formatter

/-- A search stub for the concrete C9/C10 runs: hits exactly on the
one-character document `"x"`, capturing empty `before`/`indent`/`after`
groups and the code `"x"`. -/
def searchC9 : Str → Option RMatch :=
  fun s => if s = str "x" then some ⟨[], [], str "x", []⟩ else none

/-- C9, counterexample.  The shared `mode.line_length` *is* mutated in
place: `blacken_code_blocks` runs `mode.line_length -= 4` before
formatting and `wrap_and_fix` subtracts the indent, each restoring only on
the normal path.  When `black.format_str` (resp. the fill step) raises,
the exception escapes between the decrement and the restore and the
caller's mode is left at the reduced value: entering both calls with
`line_length = 88` (indent 4) leaves the shared mode at 84, not 88. -/
theorem C9_counterexample :
    blacken_code_blocks searchC9 (fun _ _ => none) (str "x") ⟨88⟩ = .error ⟨84⟩ ∧
    PkgFormatter.wrap_and_fix (fun _ _ => .error ()) (str "x") ⟨88⟩ (some 4) =
      .error ⟨84⟩ ∧
    (⟨84⟩ : Mode) ≠ ⟨88⟩ :=
  ⟨rfl, rfl, by decide⟩

/-- C9, amended.  The shared mode is adjusted by an in-place
decrement/restore pair rather than a derived value, but on every *normal*
return of `blacken_code_blocks` and of `wrap_and_fix` the restore has been
executed and the caller-visible `line_length` equals its entry value. -/
theorem C9_amended :
    (∀ (search : Str → Option RMatch) (black : Str → Int → Option Str)
        (s : Str) (m : Mode) (out : Str) (m' : Mode),
        blacken_code_blocks search black s m = .ok (out, m') → m' = m) ∧
    (∀ (fill : Str → Int → Except Unit Str) (text : Str) (m : Mode)
        (i : Option Int) (out : Str) (m' : Mode),
        PkgFormatter.wrap_and_fix fill text m i = .ok (out, m') → m' = m) :=
  ⟨fun search black s m out m' h => bcb_ok_mode search black s m out m' h,
   fun fill text m i out m' h => PkgFormatter.waf_ok_mode fill text m i out m' h⟩

/-- Closed instance of the amended C9: a successful `blacken_code_blocks`
run entered at width 88 hands back width 88. -/
theorem C9_amended_witness : (⟨88⟩ : Mode) = ⟨88⟩ :=
  C9_amended.1 searchC9 (fun s _ => some s) (str "x") ⟨88⟩ (str "    x") ⟨88⟩ rfl

/-- C10.  The in-place decrement is undone exactly on normal return — the
returned mode equals the entry mode for both `blacken_code_blocks`
(decrement by 4) and `wrap_and_fix` (decrement by the indent) — while any
error escaping the call carries the still-reduced mode: `entry - 4` for
`blacken_code_blocks`, `entry - indent` for `wrap_and_fix`. -/
theorem C10_mode_restore :
    (∀ (search : Str → Option RMatch) (black : Str → Int → Option Str)
        (s : Str) (m : Mode) (out : Str) (m' : Mode),
        blacken_code_blocks search black s m = .ok (out, m') → m' = m) ∧
    (∀ (search : Str → Option RMatch) (black : Str → Int → Option Str)
        (s : Str) (m : Mode) (e : Mode),
        blacken_code_blocks search black s m = .error e →
          e = ⟨m.line_length - 4⟩) ∧
    (∀ (fill : Str → Int → Except Unit Str) (text : Str) (m : Mode)
        (i : Option Int) (out : Str) (m' : Mode),
        PkgFormatter.wrap_and_fix fill text m i = .ok (out, m') → m' = m) ∧
    (∀ (fill : Str → Int → Except Unit Str) (text : Str) (m : Mode) (j : Int)
        (e : Mode),
        PkgFormatter.wrap_and_fix fill text m (some j) = .error e →
          e = ⟨m.line_length - j⟩) :=
  ⟨fun search black s m out m' h => bcb_ok_mode search black s m out m' h,
   fun search black s m e h => bcb_error_mode search black s m e h,
   fun fill text m i out m' h => PkgFormatter.waf_ok_mode fill text m i out m' h,
   fun fill text m j e h => PkgFormatter.waf_error_mode fill text m j e h⟩

/-- Closed instance of C10: the failing run entered at width 88 escapes
with the reduced width 84 = 88 - 4. -/
theorem C10_mode_restore_witness : (⟨84⟩ : Mode) = ⟨(88 : Int) - 4⟩ :=
  C10_mode_restore.2.1 searchC9 (fun _ _ => none) (str "x") ⟨88⟩ ⟨84⟩ rfl

end Formatter

namespace BlackenDocs

/-- Closed instance of C1: on the blockless document `"a\n"` the RST pass
re-emits the single raw piece verbatim. -/
theorem C1_noncode_preservation_witness :
    ((str "a\n", ([] : List CodeBlockError))).1 =
      ((rstSplit (str "a\n")).map (rstEmit (fun _ => none))).flatten :=
  ((C1_noncode_preservation (fun _ => none)).2.1 (str "a\n")).2.2.2
    (str "a\n", []) rfl

end BlackenDocs
